import Mathlib

/-!
Shallow embedding of the number-theoretic engine of the `libttak` repository
(scripts `analyze.py` and `deep_analyze.py` of `apps/aliquot-swipe-amicable-by-3`,
plus the aliquot verify engine), together with proofs about the embedded code.

Loops of the Python source are modelled as fuel-indexed recursions; a function
that can loop forever in Python returns `Option` and yields `none` when the
fuel runs out, so every `some` result is a result the Python code returns.
Fuel recursions in the evaluation-heavy helpers are written with an explicit
`Nat.rec` so that kernel reduction is lazy in the fuel argument; their
definitional equations are restated as `rfl` lemmas right below each one.
-/

namespace Libttak

/-! ### Shared numeric helpers (identical in both scripts) -/

/-- Binary modular exponentiation, mirroring Python's built-in `pow(b, e, m)`
used by both copies of `is_probable_prime`. -/
def powModF (fuel : Nat) : Nat → Nat → Nat → Nat :=
  Nat.rec (motive := fun _ => Nat → Nat → Nat → Nat)
    (fun _ _ m => 1 % m)
    (fun _ ih b e m =>
      if e = 0 then 1 % m
      else if e % 2 = 1 then ih (b * b % m) (e / 2) m * (b % m) % m
      else ih (b * b % m) (e / 2) m)
    fuel

/-- Python's `pow(b, e, m)`: the fuel `e + 1` always dominates the number of
halvings of the exponent. -/
def powMod (b e m : Nat) : Nat := powModF (e + 1) b e m

/-- Decomposition `d = odd · 2^s` : the loop `while d % 2 == 0: d //= 2; s += 1`. -/
def oddPartF (fuel : Nat) : Nat → Nat × Nat :=
  Nat.rec (motive := fun _ => Nat → Nat × Nat)
    (fun d => (d, 0))
    (fun _ ih d =>
      if d % 2 = 0 then ((ih (d / 2)).1, (ih (d / 2)).2 + 1)
      else (d, 0))
    fuel

/-- Odd part and dyadic valuation of `d`, with self-dominating fuel. -/
def oddPart (d : Nat) : Nat × Nat := oddPartF d d

/-- The squaring probe of a Miller-Rabin witness:
`for _ in range(k): x = x*x % n; if x == n-1: <witness passes>`. -/
def squareProbe (k : Nat) : Nat → Nat → Bool :=
  Nat.rec (motive := fun _ => Nat → Nat → Bool)
    (fun _ _ => false)
    (fun _ ih x n =>
      if x * x % n = n - 1 then true else ih (x * x % n) n)
    k

/-- One Miller-Rabin witness check: `x = pow(a, d, n)`; pass when `x` is
`1` or `n-1`, otherwise square up to `s-1` times looking for `n-1`.
This is `check(a)` of deep_analyze.py and the inline loop body of analyze.py. -/
def mrCheck (n d s a : Nat) : Bool :=
  if powMod a d n = 1 ∨ powMod a d n = n - 1 then true
  else squareProbe (s - 1) (powMod a d n) n

/-- The fixed small-prime list shared by every copy of the engine. -/
def small_primes : List Nat := [2, 3, 5, 7, 11, 13, 17, 19, 23, 29, 31, 37]

/-- The fixed Miller-Rabin witness bases shared by both scripts. -/
def mrBases : List Nat := [2, 325, 9375, 28178, 450775, 9780504, 1795265022]

/-- The small-prime preamble of `is_probable_prime`:
`for p in small: if n == p: return True; if n % p == 0: return False`. -/
def smallPre (n : Nat) : List Nat → Option Bool
  | [] => none
  | p :: ps => if n = p then some true else if n % p = 0 then some false else smallPre n ps

namespace Analyze

/-- Witness loop of analyze.py's `is_probable_prime`: the base is reduced
modulo `n` first, and a base reducing to `0` is skipped (`continue`). -/
def witnessLoop (n d s : Nat) : List Nat → Bool
  | [] => true
  | a :: rest =>
    if a % n = 0 then witnessLoop n d s rest
    else if mrCheck n d s (a % n) then witnessLoop n d s rest
    else false

/-- is_probable_prime of analyze.py (lines 7-39). -/
def is_probable_prime (n : Nat) : Bool :=
  if n < 2 then false
  else
    match smallPre n small_primes with
    | some b => b
    | none => witnessLoop n (oddPart (n - 1)).1 (oddPart (n - 1)).2 mrBases

end Analyze

namespace DeepAnalyze

/-- Witness loop of deep_analyze.py's `is_probable_prime`: a base whose
residue modulo `n` is `0` triggers `return True` immediately (lines 135-137). -/
def witnessLoop (n d s : Nat) : List Nat → Bool
  | [] => true
  | a :: rest =>
    if a % n = 0 then true
    else if mrCheck n d s a then witnessLoop n d s rest
    else false

/-- is_probable_prime of deep_analyze.py (lines 107-140). -/
def is_probable_prime (n : Nat) : Bool :=
  if n < 2 then false
  else
    match smallPre n small_primes with
    | some b => b
    | none => witnessLoop n (oddPart (n - 1)).1 (oddPart (n - 1)).2 mrBases

end DeepAnalyze

/-! ### Factorization mappings

Python's `Counter` / `dict` keyed by primes is modelled as an association
list in insertion order; `addFactor` is `fac[p] = fac.get(p, 0) + k`. -/

/-- Merge `k` into the exponent of `p`: `fac[p] = fac.get(p, 0) + k`. -/
def addFactor : List (Nat × Nat) → Nat → Nat → List (Nat × Nat)
  | [], p, k => [(p, k)]
  | (q, e) :: rest, p, k =>
    if q = p then (q, e + k) :: rest else (q, e) :: addFactor rest p k

/-- Product of `p ^ e` over all entries of the mapping. -/
def facProd (fac : List (Nat × Nat)) : Nat := (fac.map fun pe => pe.1 ^ pe.2).prod

/-- Absolute difference, Python's `abs(x - y)` on integers. -/
def absDiff (a b : Nat) : Nat := if b ≤ a then a - b else b - a

namespace Analyze

/-- Inner cycle-detection loop of analyze.py's `pollard_rho`
(`while d == 1: x = f(x); y = f(f(y)); d = gcd(abs(x-y), n)`) with
`f(v) = (v*v + c) % n`; returns the gcd that ended the loop. -/
def rhoInner (c n : Nat) : Nat → Nat → Nat → Option Nat
  | 0, _, _ => none
  | fuel + 1, x, y =>
    if Nat.gcd (absDiff ((x * x + c) % n) ((((y * y + c) % n) * ((y * y + c) % n) + c) % n)) n = 1 then
      rhoInner c n fuel ((x * x + c) % n) ((((y * y + c) % n) * ((y * y + c) % n) + c) % n)
    else some (Nat.gcd (absDiff ((x * x + c) % n) ((((y * y + c) % n) * ((y * y + c) % n) + c) % n)) n)

/-- Outer restart loop of `pollard_rho` over the stream of random draws
`(c, x)`; a try whose gcd came out as `n` restarts with the next draw. -/
def rhoTries (fuel n : Nat) : List (Nat × Nat) → Option (Nat × List (Nat × Nat))
  | [] => none
  | (c, x0) :: rest =>
    match rhoInner c n fuel x0 x0 with
    | none => none
    | some d => if d ≠ n then some (d, rest) else rhoTries fuel n rest

/-- pollard_rho of analyze.py (lines 42-63).  The random draws
`c = randrange(1, n)`, `x = randrange(0, n)` are supplied as an explicit
stream of pairs; the unconsumed remainder of the stream is returned. -/
def pollard_rho (fuel n : Nat) (attempts : List (Nat × Nat)) :
    Option (Nat × List (Nat × Nat)) :=
  if n % 2 = 0 then some (2, attempts)
  else if n % 3 = 0 then some (3, attempts)
  else rhoTries fuel n attempts

/-- Small-prime stripping of analyze.py's `factorize`:
`while n % p == 0: res[p] += 1; n //= p`. -/
def stripLoop : Nat → Nat → List (Nat × Nat) → Nat → Option (List (Nat × Nat) × Nat)
  | 0, _, _, _ => none
  | fuel + 1, p, res, n =>
    if n % p = 0 then stripLoop fuel p (addFactor res p 1) (n / p) else some (res, n)

/-- The `for p in [2, ..., 37]` loop of analyze.py's `factorize`; the strip
loop carries the self-dominating fuel `n + 1` (at most log2 n divisions
happen before the loop condition fails). -/
def smallsLoop : List Nat → List (Nat × Nat) → Nat → Option (List (Nat × Nat) × Nat)
  | [], res, n => some (res, n)
  | p :: ps, res, n => do
    let rn ← stripLoop (n + 1) p res n
    smallsLoop ps rn.1 rn.2

/-- The recursive splitter `rec(m)` of analyze.py's `factorize`, threading
the random-draw stream through the `pollard_rho` calls. -/
def recSplit : Nat → List (Nat × Nat) → List (Nat × Nat) → Nat →
    Option (List (Nat × Nat) × List (Nat × Nat))
  | 0, _, _, _ => none
  | fuel + 1, attempts, res, m =>
    if m = 1 then some (res, attempts)
    else if is_probable_prime m then some (addFactor res m 1, attempts)
    else do
      let da ← pollard_rho fuel m attempts
      let ra ← recSplit fuel da.2 res da.1
      recSplit fuel ra.2 ra.1 (m / da.1)

/-- factorize of analyze.py (lines 66-89). -/
def factorize (fuel : Nat) (attempts : List (Nat × Nat)) (n : Nat) :
    Option (List (Nat × Nat)) :=
  if n < 2 then some []
  else do
    let rn ← smallsLoop small_primes [] n
    if rn.2 > 1 then
      let ra ← recSplit fuel attempts rn.1 rn.2
      some ra.1
    else some rn.1

/-- sigma_from_factors of analyze.py (lines 92-96). -/
def sigma_from_factors (f : List (Nat × Nat)) : Nat :=
  (f.map fun pe => (pe.1 ^ (pe.2 + 1) - 1) / (pe.1 - 1)).prod

end Analyze

namespace DeepAnalyze

/-- Counting strip loop of `factorize_trial_then_pollard_rho`:
`cnt = 0; while n % p == 0: n //= p; cnt += 1`. -/
def stripCount : Nat → Nat → Nat → Option (Nat × Nat)
  | 0, _, _ => none
  | fuel + 1, p, n =>
    if n % p = 0 then do
      let cm ← stripCount fuel p (n / p)
      some (cm.1 + 1, cm.2)
    else some (0, n)

/-- The trial division loop over the fixed small primes (deep_analyze.py
lines 30-37): strip each dividing prime completely and record its count.
The strip loop carries the self-dominating fuel `n + 1`. -/
def smallsLoop : List Nat → List (Nat × Nat) → Nat → Option (List (Nat × Nat) × Nat)
  | [], fac, n => some (fac, n)
  | p :: ps, fac, n =>
    if n % p = 0 then do
      let cm ← stripCount (n + 1) p n
      smallsLoop ps (addFactor fac p cm.1) cm.2
    else smallsLoop ps fac n

/-- Wheel trial division (deep_analyze.py lines 39-51):
`while f * f <= n and f <= 20000`, with `f` stepping 2, 4, 2, 4, ... -/
def wheelLoop : Nat → Nat → Nat → List (Nat × Nat) → Nat → Option (List (Nat × Nat) × Nat)
  | 0, f, _, fac, n =>
    if f * f ≤ n ∧ f ≤ 20000 then none else some (fac, n)
  | fuel + 1, f, step, fac, n =>
    if f * f ≤ n ∧ f ≤ 20000 then
      if n % f = 0 then do
        let cm ← stripCount (n + 1) f n
        wheelLoop fuel (f + step) (6 - step) (addFactor fac f cm.1) cm.2
      else wheelLoop fuel (f + step) (6 - step) fac n
    else some (fac, n)

/-- One application of `f = lambda v: (pow(v, 2, n_) + c) % n_`. -/
def rhoStep (c n v : Nat) : Nat := (powMod v 2 n + c) % n

/-- The `while d == 1` loop shared by deep_analyze.py's `rho` and the
fallback retries inside `split`. -/
def rhoLoop : Nat → Nat → Nat → Nat → Nat → Option Nat
  | 0, _, _, _, _ => none
  | fuel + 1, x, y, c, n =>
    if Nat.gcd (absDiff (rhoStep c n x) (rhoStep c n (rhoStep c n y))) n = 1 then
      rhoLoop fuel (rhoStep c n x) (rhoStep c n (rhoStep c n y)) c n
    else some (Nat.gcd (absDiff (rhoStep c n x) (rhoStep c n (rhoStep c n y))) n)

/-- rho of deep_analyze.py (lines 62-76): deterministic parameters
`x = y = 2`, `c = 1`; note that it returns whatever gcd ended the loop,
which may be `n_` itself. -/
def rho (fuel n : Nat) : Option Nat :=
  if n % 2 = 0 then some 2
  else if n % 3 = 0 then some 3
  else rhoLoop fuel 2 2 1 n

/-- The heuristic fallback inside `split` (lines 86-98): retry the cycle
loop with `c` from a fixed list, keeping the first gcd strictly between
1 and `n_`; if none qualifies the incoming `d` is kept. -/
def fallbackLoop (fuel n : Nat) : List Nat → Nat → Option Nat
  | [], d => some d
  | c :: cs, d => do
    let d2 ← rhoLoop fuel 2 2 c n
    if 1 < d2 ∧ d2 < n then some d2 else fallbackLoop fuel n cs d

/-- The recursive splitter `split(n_)` of deep_analyze.py (lines 78-100). -/
def split : Nat → List (Nat × Nat) → Nat → Option (List (Nat × Nat))
  | 0, _, _ => none
  | fuel + 1, fac, m =>
    if m = 1 then some fac
    else if is_probable_prime m then some (addFactor fac m 1)
    else do
      let d0 ← rho fuel m
      let d ← if d0 = m then fallbackLoop fuel m [3, 5, 7, 11, 13] d0 else some d0
      let fac1 ← split fuel fac d
      split fuel fac1 (m / d)

/-- factorize_trial_then_pollard_rho of deep_analyze.py (lines 13-104). -/
def factorize_trial_then_pollard_rho (fuel n : Nat) : Option (List (Nat × Nat)) :=
  if n < 2 then some []
  else do
    let fn ← smallsLoop small_primes [] n
    let wn ← wheelLoop fuel 41 2 fn.1 fn.2
    if wn.2 = 1 then some wn.1
    else if is_probable_prime wn.2 then some (addFactor wn.1 wn.2 1)
    else split fuel wn.1 wn.2

/-- sigma_from_factorization of deep_analyze.py (lines 143-147). -/
def sigma_from_factorization (fac : List (Nat × Nat)) : Nat :=
  (fac.map fun pe => (pe.1 ^ (pe.2 + 1) - 1) / (pe.1 - 1)).prod

/-- sum_proper_divisors of deep_analyze.py (lines 150-155). -/
def sum_proper_divisors (fuel n : Nat) : Option Nat :=
  if n ≤ 1 then some 0
  else (factorize_trial_then_pollard_rho fuel n).map
    (fun fac => sigma_from_factorization fac - n)

/-- Python's `int.bit_length`, by repeated halving. -/
def bitLenF : Nat → Nat → Nat
  | 0, _ => 0
  | fuel + 1, n => if n = 0 then 0 else bitLenF fuel (n / 2) + 1

/-- bit_length of deep_analyze.py (lines 158-159). -/
def bit_length (n : Nat) : Nat := bitLenF n n

/-- Ending classification of a verify run; rendered to the strings
`"terminated"`, `"cycle_<N>"`, `"step_limit"` of the source. -/
inductive Ended where
  | terminated : Ended
  | cycle (len : Nat) : Ended
  | step_limit : Ended
deriving DecidableEq, Repr

/-- String tag of a classification, as written into the TSV report. -/
def Ended.render : Ended → String
  | .terminated => "terminated"
  | .cycle len => "cycle_" ++ toString len
  | .step_limit => "step_limit"

/-- The result record of `run_aliquot_verify` (deep_analyze.py lines 164-174). -/
structure VerifyResult where
  seed : Nat
  steps : Nat
  ended : Ended
  final : Nat
  peak : Nat
  peak_step : Nat
  peak_bits : Nat
  ok : Bool
  reason : String
deriving DecidableEq, Repr

/-- Membership plus lookup in the `seen` dictionary. -/
def lookupSeen : List (Nat × Nat) → Nat → Option Nat
  | [], _ => none
  | (v, s) :: rest, x => if v = x then some s else lookupSeen rest x

/-- The `for step in range(1, max_steps + 1)` loop of `run_aliquot_verify`,
with `b` the remaining budget and `step` the current 1-based index. -/
def runAux (fuel seed maxSteps : Nat) :
    Nat → Nat → Nat → List (Nat × Nat) → Nat → Nat → Option VerifyResult
  | 0, _, cur, _, peak, peakStep =>
    some ⟨seed, maxSteps, .step_limit, cur, peak, peakStep, bit_length peak, true, ""⟩
  | b + 1, step, cur, seen, peak, peakStep => do
    let nxt ← sum_proper_divisors fuel cur
    if nxt ≤ 1 then
      some ⟨seed, step, .terminated, nxt, if nxt > peak then nxt else peak,
        if nxt > peak then step else peakStep,
        bit_length (if nxt > peak then nxt else peak), true, ""⟩
    else
      match lookupSeen seen nxt with
      | some j =>
        some ⟨seed, step, .cycle (step - j), nxt, if nxt > peak then nxt else peak,
          if nxt > peak then step else peakStep,
          bit_length (if nxt > peak then nxt else peak), true, ""⟩
      | none =>
        runAux fuel seed maxSteps b (step + 1) nxt ((nxt, step) :: seen)
          (if nxt > peak then nxt else peak) (if nxt > peak then step else peakStep)

/-- run_aliquot_verify of deep_analyze.py (lines 177-201). -/
def run_aliquot_verify (fuel seed maxSteps : Nat) : Option VerifyResult :=
  runAux fuel seed maxSteps maxSteps 1 seed [(seed, 0)] seed 0

/-- k-fold application of the aliquot map `sum_proper_divisors`. -/
def iterN (fuel : Nat) : Nat → Nat → Option Nat
  | 0, n => some n
  | k + 1, n => do
    let m ← sum_proper_divisors fuel n
    iterN fuel k m

end DeepAnalyze

/-! ### Ground truth, following the spec's words

The spec compares the engine against "exhaustive trial division" and the
"sum of all positive divisors of n obtained by direct enumeration". -/

/-- Trial division over odd candidates `d, d+2, d+4, ...` while `d * d ≤ n`. -/
def tdOdd (fuel : Nat) : Nat → Nat → Bool :=
  Nat.rec (motive := fun _ => Nat → Nat → Bool)
    (fun _ _ => true)
    (fun _ ih d n =>
      if d * d ≤ n then
        if n % d = 0 then false else ih (d + 2) n
      else true)
    fuel

/-- Modelled from the spec: primality as decided by exhaustive trial
division (the ground truth of spec section 8). -/
def isPrimeTD (n : Nat) : Bool :=
  if n < 2 then false
  else if n = 2 then true
  else if n % 2 = 0 then false
  else tdOdd n 3 n

/-- Modelled from the spec: the sum of all positive divisors of `n`
obtained by direct enumeration (`Nat.divisors` filters `1..n`). -/
def divisorSumSpec (n : Nat) : Nat := ∑ d ∈ n.divisors, d

/-- Bounded universal check by binary splitting, lazy in the fuel. -/
def allB (f : Nat → Bool) (fuel : Nat) : Nat → Nat → Bool :=
  Nat.rec (motive := fun _ => Nat → Nat → Bool)
    (fun lo len => if len = 0 then true else if len = 1 then f lo else false)
    (fun _ ih lo len =>
      if len = 0 then true
      else if len = 1 then f lo
      else ih lo (len / 2) && ih (lo + len / 2) (len - len / 2))
    fuel

/-- Keys of the mapping, in insertion order. -/
def facKeys (fac : List (Nat × Nat)) : List Nat := fac.map Prod.fst

/-! ### Entry invariants and the divisor-sum formula -/

/-- Every entry has a key of at least 2 and a positive exponent. -/
def goodEntries (fac : List (Nat × Nat)) : Prop := ∀ pe ∈ fac, 2 ≤ pe.1 ∧ 1 ≤ pe.2

/-! ### The zero-residue witness discrepancy between the two tests (C7) -/

/-- Instrumented count of witness bases examined by deep_analyze.py's loop
(lines 131-139) before it returns its verdict. -/
def DeepAnalyze.witnessesExamined (n d s : Nat) : List Nat → Nat
  | [] => 0
  | a :: rest =>
    if a % n = 0 then 1
    else if mrCheck n d s a then DeepAnalyze.witnessesExamined n d s rest + 1
    else 1

/-! ### Bounded agreement of the probabilistic test with trial division (C3 evidence) -/

/-- Pointwise agreement of analyze.py's test with the trial-division
ground truth, as a boolean. -/
def mrEq (n : Nat) : Bool := Analyze.is_probable_prime n == isPrimeTD n

/-! ### Theorems -/

theorem powModF_zero (b e m : Nat) : powModF 0 b e m = 1 % m := rfl

theorem powModF_succ (f b e m : Nat) :
    powModF (f + 1) b e m =
      if e = 0 then 1 % m
      else if e % 2 = 1 then powModF f (b * b % m) (e / 2) m * (b % m) % m
      else powModF f (b * b % m) (e / 2) m := rfl

theorem oddPartF_zero (d : Nat) : oddPartF 0 d = (d, 0) := rfl

theorem oddPartF_succ (f d : Nat) :
    oddPartF (f + 1) d =
      if d % 2 = 0 then ((oddPartF f (d / 2)).1, (oddPartF f (d / 2)).2 + 1)
      else (d, 0) := rfl

theorem squareProbe_zero (x n : Nat) : squareProbe 0 x n = false := rfl

theorem squareProbe_succ (k x n : Nat) :
    squareProbe (k + 1) x n =
      if x * x % n = n - 1 then true else squareProbe k (x * x % n) n := rfl

theorem tdOdd_zero (d n : Nat) : tdOdd 0 d n = true := rfl

theorem tdOdd_succ (f d n : Nat) :
    tdOdd (f + 1) d n =
      if d * d ≤ n then
        if n % d = 0 then false else tdOdd f (d + 2) n
      else true := rfl

theorem allB_zero (f : Nat → Bool) (lo len : Nat) :
    allB f 0 lo len = if len = 0 then true else if len = 1 then f lo else false := rfl

theorem allB_succ (f : Nat → Bool) (k lo len : Nat) :
    allB f (k + 1) lo len =
      if len = 0 then true
      else if len = 1 then f lo
      else allB f k lo (len / 2) && allB f k (lo + len / 2) (len - len / 2) := rfl

/-! ### Invariants of the factorization mapping -/

theorem facProd_nil : facProd [] = 1 := rfl

theorem facProd_cons (pe : Nat × Nat) (fac : List (Nat × Nat)) :
    facProd (pe :: fac) = pe.1 ^ pe.2 * facProd fac := by
  simp [facProd]

/-- Merging an exponent multiplies the represented number by `p ^ k`. -/
theorem facProd_addFactor (fac : List (Nat × Nat)) (p k : Nat) :
    facProd (addFactor fac p k) = p ^ k * facProd fac := by
  induction fac with
  | nil => simp [addFactor, facProd]
  | cons pe rest ih =>
    obtain ⟨q, e⟩ := pe
    by_cases h : q = p
    · subst h
      simp [addFactor, facProd_cons, pow_add]
      ring
    · simp [addFactor, h, facProd_cons, ih]
      ring

/-- Entry-wise preservation through `addFactor`. -/
theorem forall_addFactor {P : Nat → Nat → Prop} {fac : List (Nat × Nat)} {p k : Nat}
    (h : ∀ pe ∈ fac, P pe.1 pe.2)
    (hbump : ∀ q e, P q e → P q (e + k)) (hnew : P p k) :
    ∀ pe ∈ addFactor fac p k, P pe.1 pe.2 := by
  induction fac with
  | nil => simpa [addFactor] using hnew
  | cons qe rest ih =>
    obtain ⟨q, e⟩ := qe
    by_cases hq : q = p
    · subst hq
      simp only [addFactor, if_pos rfl]
      intro pe hpe
      rcases List.mem_cons.1 hpe with h1 | h2
      · subst h1; exact hbump q e (h (q, e) (List.mem_cons_self _ _))
      · exact h pe (List.mem_cons_of_mem _ h2)
    · simp only [addFactor, if_neg hq]
      intro pe hpe
      rcases List.mem_cons.1 hpe with h1 | h2
      · subst h1; exact h (q, e) (List.mem_cons_self _ _)
      · exact ih (fun pe hpe => h pe (List.mem_cons_of_mem _ hpe)) pe h2

theorem facKeys_addFactor_of_mem {fac : List (Nat × Nat)} {p : Nat} (k : Nat)
    (h : p ∈ facKeys fac) : facKeys (addFactor fac p k) = facKeys fac := by
  induction fac with
  | nil => simp [facKeys] at h
  | cons qe rest ih =>
    obtain ⟨q, e⟩ := qe
    by_cases hq : q = p
    · subst hq; simp [addFactor, facKeys]
    · have hrest : p ∈ facKeys rest := by
        simp only [facKeys, List.map_cons, List.mem_cons] at h
        rcases h with h1 | h1
        · exact absurd h1.symm hq
        · exact h1
      have hih := ih hrest
      simp only [addFactor, if_neg hq, facKeys, List.map_cons] at hih ⊢
      rw [hih]

theorem facKeys_addFactor_of_not_mem {fac : List (Nat × Nat)} {p : Nat} (k : Nat)
    (h : p ∉ facKeys fac) : facKeys (addFactor fac p k) = facKeys fac ++ [p] := by
  induction fac with
  | nil => simp [addFactor, facKeys]
  | cons qe rest ih =>
    obtain ⟨q, e⟩ := qe
    simp only [facKeys, List.map_cons, List.mem_cons, not_or] at h
    obtain ⟨hq0, hrest⟩ := h
    have hq : q ≠ p := fun hh => hq0 hh.symm
    have hih := ih hrest
    simp only [addFactor, if_neg hq, facKeys, List.map_cons, List.cons_append] at hih ⊢
    rw [hih]

/-- `addFactor` keeps the keys of the mapping distinct. -/
theorem nodup_facKeys_addFactor {fac : List (Nat × Nat)} {p k : Nat}
    (h : (facKeys fac).Nodup) : (facKeys (addFactor fac p k)).Nodup := by
  by_cases hp : p ∈ facKeys fac
  · rwa [facKeys_addFactor_of_mem k hp]
  · rw [facKeys_addFactor_of_not_mem k hp]
    simp [List.nodup_append, h, hp]

theorem mem_facKeys_addFactor {fac : List (Nat × Nat)} {p k q : Nat}
    (h : q ∈ facKeys (addFactor fac p k)) : q ∈ facKeys fac ∨ q = p := by
  by_cases hp : p ∈ facKeys fac
  · rw [facKeys_addFactor_of_mem k hp] at h; exact Or.inl h
  · rw [facKeys_addFactor_of_not_mem k hp] at h
    simpa using List.mem_append.1 h

namespace DeepAnalyze

/-! ### Structural invariants of the deep factorizer -/

theorem stripCount_spec {fuel : Nat} :
    ∀ {p n c m : Nat}, stripCount fuel p n = some (c, m) →
      p ^ c * m = n ∧ ¬ p ∣ m := by
  induction fuel with
  | zero => intro p n c m h; simp [stripCount] at h
  | succ f ih =>
    intro p n c m h
    simp only [stripCount] at h
    by_cases hd : n % p = 0
    · rw [if_pos hd] at h
      rcases Option.bind_eq_some.1 h with ⟨cm, hsc, hret⟩
      obtain ⟨c0, m0⟩ := cm
      simp at hret
      obtain ⟨hc, hm⟩ := hret
      subst hc; subst hm
      obtain ⟨hprod, hnd⟩ := ih hsc
      constructor
      · have hpd : p ∣ n := Nat.dvd_of_mod_eq_zero hd
        calc p ^ (c0 + 1) * m0 = p * (p ^ c0 * m0) := by ring
          _ = p * (n / p) := by rw [hprod]
          _ = n := Nat.mul_div_cancel' hpd
      · exact hnd
    · rw [if_neg hd] at h
      simp at h
      obtain ⟨hc, hm⟩ := h
      subst hc; subst hm
      refine ⟨by ring, fun hdvd => hd ?_⟩
      obtain ⟨k, rfl⟩ := hdvd
      exact Nat.mul_mod_right p k

theorem stripCount_pos {fuel p n c m : Nat} (h : stripCount fuel p n = some (c, m))
    (hd : n % p = 0) : 1 ≤ c := by
  cases fuel with
  | zero => simp [stripCount] at h
  | succ f =>
    simp only [stripCount, if_pos hd] at h
    rcases Option.bind_eq_some.1 h with ⟨cm, _, hret⟩
    simp at hret
    omega

theorem smallsLoop_prod :
    ∀ {ps : List Nat} {fac : List (Nat × Nat)} {n : Nat} {fac' : List (Nat × Nat)} {n' : Nat},
      smallsLoop ps fac n = some (fac', n') →
      facProd fac' * n' = facProd fac * n := by
  intro ps
  induction ps with
  | nil =>
    intro fac n fac' n' h
    simp [smallsLoop] at h
    rw [h.1, h.2]
  | cons p ps ih =>
    intro fac n fac' n' h
    simp only [smallsLoop] at h
    by_cases hd : n % p = 0
    · rw [if_pos hd] at h
      rcases Option.bind_eq_some.1 h with ⟨cm, hsc, hrec⟩
      obtain ⟨c0, m0⟩ := cm
      have hspec := stripCount_spec hsc
      have := ih hrec
      rw [this, facProd_addFactor]
      calc p ^ c0 * facProd fac * m0 = facProd fac * (p ^ c0 * m0) := by ring
        _ = facProd fac * n := by rw [hspec.1]
    · rw [if_neg hd] at h
      exact ih h

theorem wheelLoop_prod {fuel : Nat} :
    ∀ {f step : Nat} {fac : List (Nat × Nat)} {n : Nat} {fac' : List (Nat × Nat)} {n' : Nat},
      wheelLoop fuel f step fac n = some (fac', n') →
      facProd fac' * n' = facProd fac * n := by
  induction fuel with
  | zero =>
    intro f step fac n fac' n' h
    simp only [wheelLoop] at h
    by_cases hc : f * f ≤ n ∧ f ≤ 20000
    · rw [if_pos hc] at h; cases h
    · rw [if_neg hc] at h
      simp at h
      rw [h.1, h.2]
  | succ fl ih =>
    intro f step fac n fac' n' h
    simp only [wheelLoop] at h
    by_cases hc : f * f ≤ n ∧ f ≤ 20000
    · rw [if_pos hc] at h
      by_cases hd : n % f = 0
      · rw [if_pos hd] at h
        rcases Option.bind_eq_some.1 h with ⟨cm, hsc, hrec⟩
        obtain ⟨c0, m0⟩ := cm
        have hspec := stripCount_spec hsc
        have := ih hrec
        rw [this, facProd_addFactor]
        calc f ^ c0 * facProd fac * m0 = facProd fac * (f ^ c0 * m0) := by ring
          _ = facProd fac * n := by rw [hspec.1]
      · rw [if_neg hd] at h
        exact ih h
    · rw [if_neg hc] at h
      simp at h
      rw [h.1, h.2]

theorem rhoLoop_dvd {fuel : Nat} :
    ∀ {x y c n d : Nat}, rhoLoop fuel x y c n = some d → d ∣ n ∧ d ≠ 1 := by
  induction fuel with
  | zero => intro x y c n d h; simp [rhoLoop] at h
  | succ f ih =>
    intro x y c n d h
    simp only [rhoLoop] at h
    split at h
    · exact ih h
    · next hne =>
      rcases Option.some.inj h with rfl
      exact ⟨Nat.gcd_dvd_right _ _, hne⟩

theorem rho_dvd {fuel n d : Nat} (h : rho fuel n = some d) : d ∣ n ∧ d ≠ 1 := by
  unfold rho at h
  by_cases h2 : n % 2 = 0
  · rw [if_pos h2] at h
    rcases Option.some.inj h with rfl
    exact ⟨Nat.dvd_of_mod_eq_zero h2, by omega⟩
  · rw [if_neg h2] at h
    by_cases h3 : n % 3 = 0
    · rw [if_pos h3] at h
      rcases Option.some.inj h with rfl
      exact ⟨Nat.dvd_of_mod_eq_zero h3, by omega⟩
    · rw [if_neg h3] at h
      exact rhoLoop_dvd h

theorem fallbackLoop_dvd {fuel n : Nat} :
    ∀ {cs : List Nat} {d0 d : Nat}, fallbackLoop fuel n cs d0 = some d →
      d0 ∣ n → d0 ≠ 1 → d ∣ n ∧ d ≠ 1 := by
  intro cs
  induction cs with
  | nil =>
    intro d0 d h h0 h1
    simp [fallbackLoop] at h
    rw [← h]
    exact ⟨h0, h1⟩
  | cons c cs ih =>
    intro d0 d h h0 h1
    simp only [fallbackLoop] at h
    rcases Option.bind_eq_some.1 h with ⟨d2, hd2, hret⟩
    have hd2spec := rhoLoop_dvd hd2
    by_cases hgood : 1 < d2 ∧ d2 < n
    · rw [if_pos hgood] at hret
      rcases Option.some.inj hret with rfl
      exact ⟨hd2spec.1, by omega⟩
    · rw [if_neg hgood] at hret
      exact ih hret h0 h1

/-- Whatever `split` appends multiplies the represented product by `m`. -/
theorem split_prod {fuel : Nat} :
    ∀ {fac : List (Nat × Nat)} {m : Nat} {fac' : List (Nat × Nat)},
      split fuel fac m = some fac' →
      facProd fac' = facProd fac * m := by
  induction fuel with
  | zero => intro fac m fac' h; simp [split] at h
  | succ f ih =>
    intro fac m fac' h
    simp only [split] at h
    by_cases h1 : m = 1
    · rw [if_pos h1] at h
      rcases Option.some.inj h with rfl
      rw [h1, Nat.mul_one]
    · rw [if_neg h1] at h
      by_cases hp : is_probable_prime m = true
      · rw [if_pos hp] at h
        rcases Option.some.inj h with rfl
        rw [facProd_addFactor, pow_one, Nat.mul_comm]
      · rw [if_neg hp] at h
        rcases Option.bind_eq_some.1 h with ⟨d0, hd0, h⟩
        have hd0spec := rho_dvd hd0
        by_cases he : d0 = m
        · rw [if_pos he] at h
          rcases Option.bind_eq_some.1 h with ⟨d, hd, h⟩
          rcases Option.bind_eq_some.1 h with ⟨fac1, hfac1, h⟩
          have hdspec := fallbackLoop_dvd hd hd0spec.1 hd0spec.2
          have e1 := ih hfac1
          have e2 := ih h
          rw [e2, e1, Nat.mul_assoc, Nat.mul_div_cancel' hdspec.1]
        · rw [if_neg he] at h
          rcases Option.bind_eq_some.1 h with ⟨d, hd, h⟩
          rcases Option.some.inj hd with rfl
          rcases Option.bind_eq_some.1 h with ⟨fac1, hfac1, h⟩
          have e1 := ih hfac1
          have e2 := ih h
          rw [e2, e1, Nat.mul_assoc, Nat.mul_div_cancel' hd0spec.1]

/-- Total product of the factorization returned by the deep factorizer. -/
theorem factorize_prod {fuel n : Nat} {fac : List (Nat × Nat)}
    (h1 : 1 ≤ n) (h : factorize_trial_then_pollard_rho fuel n = some fac) :
    facProd fac = n := by
  unfold factorize_trial_then_pollard_rho at h
  by_cases hlt : n < 2
  · rcases (by rw [if_pos hlt] at h; exact h : some [] = some fac) with h'
    rcases Option.some.inj h' with rfl
    have : n = 1 := by omega
    simp [facProd, this]
  · rw [if_neg hlt] at h
    rcases Option.bind_eq_some.1 h with ⟨fn, hfn, h⟩
    rcases Option.bind_eq_some.1 h with ⟨wn, hwn, h⟩
    have hsm := smallsLoop_prod hfn
    have hwh := wheelLoop_prod hwn
    have hbase : facProd wn.1 * wn.2 = n := by
      rw [hwh, hsm]; simp [facProd]
    by_cases hone : wn.2 = 1
    · rw [if_pos hone] at h
      rcases Option.some.inj h with rfl
      rw [← hbase, hone, Nat.mul_one]
    · rw [if_neg hone] at h
      by_cases hp : is_probable_prime wn.2 = true
      · rw [if_pos hp] at h
        rcases Option.some.inj h with rfl
        rw [facProd_addFactor, pow_one, Nat.mul_comm, hbase]
      · rw [if_neg hp] at h
        rw [split_prod h, hbase]

end DeepAnalyze

namespace Analyze

/-! ### Structural invariants of the randomized factorizer -/

theorem rhoInner_dvd {c n : Nat} :
    ∀ {fuel x y d : Nat}, rhoInner c n fuel x y = some d → d ∣ n ∧ d ≠ 1 := by
  intro fuel
  induction fuel with
  | zero => intro x y d h; simp [rhoInner] at h
  | succ f ih =>
    intro x y d h
    simp only [rhoInner] at h
    split at h
    · exact ih h
    · next hne =>
      rcases Option.some.inj h with rfl
      exact ⟨Nat.gcd_dvd_right _ _, hne⟩

theorem rhoTries_spec {fuel n : Nat} :
    ∀ {attempts : List (Nat × Nat)} {d : Nat} {rest : List (Nat × Nat)},
      rhoTries fuel n attempts = some (d, rest) → d ∣ n ∧ d ≠ 1 ∧ d ≠ n := by
  intro attempts
  induction attempts with
  | nil => intro d rest h; simp [rhoTries] at h
  | cons cx tl ih =>
    intro d rest h
    obtain ⟨c, x0⟩ := cx
    cases hinner : rhoInner c n fuel x0 x0 with
    | none => simp [rhoTries, hinner] at h
    | some d1 =>
      simp only [rhoTries, hinner] at h
      have hspec := rhoInner_dvd hinner
      by_cases hne : d1 ≠ n
      · rw [if_pos hne] at h
        simp at h
        rcases h with ⟨rfl, rfl⟩
        exact ⟨hspec.1, hspec.2, hne⟩
      · rw [if_neg hne] at h
        exact ih h

/-- Every divisor reported by `pollard_rho` divides its argument; away from
the 2- and 3-shortcuts it is also distinct from 1 and from `n`. -/
theorem pollard_rho_spec {fuel n : Nat} {attempts rest : List (Nat × Nat)} {d : Nat}
    (h : pollard_rho fuel n attempts = some (d, rest)) :
    d ∣ n ∧ d ≠ 1 := by
  unfold pollard_rho at h
  by_cases h2 : n % 2 = 0
  · rw [if_pos h2] at h
    simp at h
    rcases h with ⟨rfl, rfl⟩
    exact ⟨Nat.dvd_of_mod_eq_zero h2, by omega⟩
  · rw [if_neg h2] at h
    by_cases h3 : n % 3 = 0
    · rw [if_pos h3] at h
      simp at h
      rcases h with ⟨rfl, rfl⟩
      exact ⟨Nat.dvd_of_mod_eq_zero h3, by omega⟩
    · rw [if_neg h3] at h
      have := rhoTries_spec h
      exact ⟨this.1, this.2.1⟩

theorem stripLoop_prod {p : Nat} :
    ∀ {fuel : Nat} {res : List (Nat × Nat)} {n : Nat} {res' : List (Nat × Nat)} {n' : Nat},
      stripLoop fuel p res n = some (res', n') →
      facProd res' * n' = facProd res * n := by
  intro fuel
  induction fuel with
  | zero => intro res n res' n' h; simp [stripLoop] at h
  | succ f ih =>
    intro res n res' n' h
    simp only [stripLoop] at h
    by_cases hd : n % p = 0
    · rw [if_pos hd] at h
      have hpd : p ∣ n := Nat.dvd_of_mod_eq_zero hd
      have := ih h
      rw [this, facProd_addFactor, pow_one]
      calc p * facProd res * (n / p) = facProd res * (p * (n / p)) := by ring
        _ = facProd res * n := by rw [Nat.mul_div_cancel' hpd]
    · rw [if_neg hd] at h
      simp at h
      rw [h.1, h.2]

theorem smallsLoopA_prod :
    ∀ {ps : List Nat} {res : List (Nat × Nat)} {n : Nat} {res' : List (Nat × Nat)} {n' : Nat},
      smallsLoop ps res n = some (res', n') →
      facProd res' * n' = facProd res * n := by
  intro ps
  induction ps with
  | nil =>
    intro res n res' n' h
    simp [smallsLoop] at h
    rw [h.1, h.2]
  | cons p tl ih =>
    intro res n res' n' h
    simp only [smallsLoop] at h
    rcases Option.bind_eq_some.1 h with ⟨rn, hrn, hrec⟩
    have h1 := stripLoop_prod hrn
    have h2 := ih hrec
    rw [h2, h1]

theorem recSplit_prod {fuel : Nat} :
    ∀ {attempts : List (Nat × Nat)} {res : List (Nat × Nat)} {m : Nat}
      {res' : List (Nat × Nat)} {rest : List (Nat × Nat)},
      recSplit fuel attempts res m = some (res', rest) →
      facProd res' = facProd res * m := by
  induction fuel with
  | zero => intro attempts res m res' rest h; simp [recSplit] at h
  | succ f ih =>
    intro attempts res m res' rest h
    simp only [recSplit] at h
    by_cases h1 : m = 1
    · rw [if_pos h1] at h
      simp at h
      rw [h.1, h1, Nat.mul_one]
    · rw [if_neg h1] at h
      by_cases hp : is_probable_prime m = true
      · rw [if_pos hp] at h
        simp at h
        rw [← h.1, facProd_addFactor, pow_one, Nat.mul_comm]
      · rw [if_neg hp] at h
        rcases Option.bind_eq_some.1 h with ⟨da, hda, h⟩
        rcases Option.bind_eq_some.1 h with ⟨ra, hra, h⟩
        have hdspec : da.1 ∣ m ∧ da.1 ≠ 1 := by
          obtain ⟨d0, atts0⟩ := da
          exact pollard_rho_spec hda
        have e1 := ih hra
        have e2 := ih h
        rw [e2, e1, Nat.mul_assoc, Nat.mul_div_cancel' hdspec.1]

/-- Total product of the factorization returned by analyze.py's factorizer,
for any stream of random draws. -/
theorem factorizeA_prod {fuel : Nat} {attempts : List (Nat × Nat)} {n : Nat}
    {res : List (Nat × Nat)} (h1 : 1 ≤ n) (h : factorize fuel attempts n = some res) :
    facProd res = n := by
  unfold factorize at h
  by_cases hlt : n < 2
  · rw [if_pos hlt] at h
    rcases Option.some.inj h with rfl
    have : n = 1 := by omega
    simp [facProd, this]
  · rw [if_neg hlt] at h
    rcases Option.bind_eq_some.1 h with ⟨rn, hrn, h⟩
    have hsm := smallsLoopA_prod hrn
    have hbase : facProd rn.1 * rn.2 = n := by
      rw [hsm]; simp [facProd]
    by_cases hgt : rn.2 > 1
    · rw [if_pos hgt] at h
      rcases Option.bind_eq_some.1 h with ⟨ra, hra, h⟩
      rcases Option.some.inj h with rfl
      rw [recSplit_prod hra, hbase]
    · rw [if_neg hgt] at h
      rcases Option.some.inj h with rfl
      have h2 : rn.2 = 1 := by
        rcases Nat.lt_or_ge rn.2 1 with hlt1 | hge1
        · exfalso
          have : rn.2 = 0 := by omega
          rw [this, Nat.mul_zero] at hbase
          omega
        · omega
      rw [← hbase, h2, Nat.mul_one]

end Analyze

theorem goodEntries_nil : goodEntries [] := by intro pe h; cases h

theorem goodEntries_addFactor {fac : List (Nat × Nat)} {p k : Nat}
    (hfac : goodEntries fac) (hp : 2 ≤ p) (hk : 1 ≤ k) :
    goodEntries (addFactor fac p k) :=
  forall_addFactor (P := fun q e => 2 ≤ q ∧ 1 ≤ e) hfac (fun _ _ h => ⟨h.1, by omega⟩) ⟨hp, hk⟩

namespace DeepAnalyze

theorem goodEntries_smallsLoop :
    ∀ {ps : List Nat} {fac : List (Nat × Nat)} {n : Nat} {fac' : List (Nat × Nat)} {n' : Nat},
      smallsLoop ps fac n = some (fac', n') →
      (∀ p ∈ ps, 2 ≤ p) → goodEntries fac → goodEntries fac' := by
  intro ps
  induction ps with
  | nil =>
    intro fac n fac' n' h _ hfac
    simp [smallsLoop] at h
    rwa [← h.1]
  | cons p tl ih =>
    intro fac n fac' n' h hps hfac
    simp only [smallsLoop] at h
    by_cases hd : n % p = 0
    · rw [if_pos hd] at h
      rcases Option.bind_eq_some.1 h with ⟨cm, hsc, hrec⟩
      have hc := stripCount_pos hsc hd
      exact ih hrec (fun q hq => hps q (List.mem_cons_of_mem _ hq))
        (goodEntries_addFactor hfac (hps p (List.mem_cons_self _ _)) hc)
    · rw [if_neg hd] at h
      exact ih h (fun q hq => hps q (List.mem_cons_of_mem _ hq)) hfac

theorem goodEntries_wheelLoop {fuel : Nat} :
    ∀ {f step : Nat} {fac : List (Nat × Nat)} {n : Nat} {fac' : List (Nat × Nat)} {n' : Nat},
      wheelLoop fuel f step fac n = some (fac', n') →
      2 ≤ f → goodEntries fac → goodEntries fac' := by
  induction fuel with
  | zero =>
    intro f step fac n fac' n' h _ hfac
    simp only [wheelLoop] at h
    by_cases hc : f * f ≤ n ∧ f ≤ 20000
    · rw [if_pos hc] at h; cases h
    · rw [if_neg hc] at h
      simp at h
      rwa [← h.1]
  | succ fl ih =>
    intro f step fac n fac' n' h hf hfac
    simp only [wheelLoop] at h
    by_cases hc : f * f ≤ n ∧ f ≤ 20000
    · rw [if_pos hc] at h
      by_cases hd : n % f = 0
      · rw [if_pos hd] at h
        rcases Option.bind_eq_some.1 h with ⟨cm, hsc, hrec⟩
        have hcpos := stripCount_pos hsc hd
        exact ih hrec (by omega) (goodEntries_addFactor hfac hf hcpos)
      · rw [if_neg hd] at h
        exact ih h (by omega) hfac
    · rw [if_neg hc] at h
      simp at h
      rwa [← h.1]

theorem ipp_two_le {m : Nat} (h : is_probable_prime m = true) : 2 ≤ m := by
  by_contra hlt
  rw [is_probable_prime, if_pos (by omega)] at h
  cases h

theorem goodEntries_split {fuel : Nat} :
    ∀ {fac : List (Nat × Nat)} {m : Nat} {fac' : List (Nat × Nat)},
      split fuel fac m = some fac' → goodEntries fac → goodEntries fac' := by
  induction fuel with
  | zero => intro fac m fac' h _; simp [split] at h
  | succ f ih =>
    intro fac m fac' h hfac
    simp only [split] at h
    by_cases h1 : m = 1
    · rw [if_pos h1] at h
      rcases Option.some.inj h with rfl
      exact hfac
    · rw [if_neg h1] at h
      by_cases hp : is_probable_prime m = true
      · rw [if_pos hp] at h
        rcases Option.some.inj h with rfl
        exact goodEntries_addFactor hfac (ipp_two_le hp) (by omega)
      · rw [if_neg hp] at h
        rcases Option.bind_eq_some.1 h with ⟨d0, _, h⟩
        by_cases he : d0 = m
        · rw [if_pos he] at h
          rcases Option.bind_eq_some.1 h with ⟨d, _, h⟩
          rcases Option.bind_eq_some.1 h with ⟨fac1, hfac1, h⟩
          exact ih h (ih hfac1 hfac)
        · rw [if_neg he] at h
          rcases Option.bind_eq_some.1 h with ⟨d, hd, h⟩
          rcases Option.some.inj hd with rfl
          rcases Option.bind_eq_some.1 h with ⟨fac1, hfac1, h⟩
          exact ih h (ih hfac1 hfac)

theorem goodEntries_factorize {fuel n : Nat} {fac : List (Nat × Nat)}
    (h : factorize_trial_then_pollard_rho fuel n = some fac) : goodEntries fac := by
  unfold factorize_trial_then_pollard_rho at h
  by_cases hlt : n < 2
  · rw [if_pos hlt] at h
    rcases Option.some.inj h with rfl
    exact goodEntries_nil
  · rw [if_neg hlt] at h
    rcases Option.bind_eq_some.1 h with ⟨fn, hfn, h⟩
    rcases Option.bind_eq_some.1 h with ⟨wn, hwn, h⟩
    have hg1 : goodEntries fn.1 := by
      obtain ⟨fn1, fn2⟩ := fn
      exact goodEntries_smallsLoop hfn (by decide) goodEntries_nil
    have hg2 : goodEntries wn.1 := by
      obtain ⟨wn1, wn2⟩ := wn
      exact goodEntries_wheelLoop hwn (by omega) hg1
    by_cases hone : wn.2 = 1
    · rw [if_pos hone] at h
      rcases Option.some.inj h with rfl
      exact hg2
    · rw [if_neg hone] at h
      by_cases hp : is_probable_prime wn.2 = true
      · rw [if_pos hp] at h
        rcases Option.some.inj h with rfl
        exact goodEntries_addFactor hg2 (ipp_two_le hp) (by omega)
      · rw [if_neg hp] at h
        exact goodEntries_split h hg2

end DeepAnalyze

/-- Geometric-series identity over the naturals:
`(p^(e+1) - 1) / (p - 1)` is `1 + p + ... + p^e`. -/
theorem sigmaTerm_eq_geomSum {p : Nat} (e : Nat) (hp : 2 ≤ p) :
    (p ^ (e + 1) - 1) / (p - 1) = ∑ i ∈ Finset.range (e + 1), p ^ i := by
  have key : ∀ k : Nat, (∑ i ∈ Finset.range k, p ^ i) * (p - 1) = p ^ k - 1 := by
    intro k
    induction k with
    | zero => simp
    | succ k ihk =>
      rw [Finset.sum_range_succ, Nat.add_mul, ihk]
      have h1 : 1 ≤ p ^ k := Nat.one_le_pow _ _ (by omega)
      have hB : p ^ (k + 1) = p ^ k * p := pow_succ p k
      have h2 : p ^ k * (p - 1) = p ^ k * p - p ^ k := by
        rw [Nat.mul_sub, Nat.mul_one]
      have h3 : p ^ k ≤ p ^ k * p := Nat.le_mul_of_pos_right _ (by omega)
      omega
  exact Nat.div_eq_of_eq_mul_left (by omega) (by rw [← key (e + 1)])

/-- Lower bound for a single sigma factor: for p ≥ 2 and e ≥ 1,
`(p^(e+1) - 1) / (p - 1) ≥ p^e + 1`. -/
theorem sigmaTerm_ge {p e : Nat} (hp : 2 ≤ p) (he : 1 ≤ e) :
    p ^ e + 1 ≤ (p ^ (e + 1) - 1) / (p - 1) := by
  rw [sigmaTerm_eq_geomSum e hp, Finset.sum_range_succ]
  have h0 : (1 : Nat) ≤ ∑ i ∈ Finset.range e, p ^ i := by
    calc (1 : Nat) = p ^ 0 := by rw [pow_zero]
      _ ≤ ∑ i ∈ Finset.range e, p ^ i :=
        Finset.single_le_sum (f := fun i => p ^ i) (fun _ _ => Nat.zero_le _)
          (Finset.mem_range.2 (by omega))
  omega

theorem sigma_cons (pe : Nat × Nat) (fac : List (Nat × Nat)) :
    DeepAnalyze.sigma_from_factorization (pe :: fac) =
      (pe.1 ^ (pe.2 + 1) - 1) / (pe.1 - 1) * DeepAnalyze.sigma_from_factorization fac := by
  simp [DeepAnalyze.sigma_from_factorization]

/-- The sigma formula strictly exceeds the represented number for a
nonempty mapping with honest entries. -/
theorem sigma_ge_facProd_add_one :
    ∀ {fac : List (Nat × Nat)}, fac ≠ [] → goodEntries fac →
      facProd fac + 1 ≤ DeepAnalyze.sigma_from_factorization fac := by
  intro fac
  induction fac with
  | nil => intro h _; cases h rfl
  | cons pe rest ih =>
    intro _ hgood
    obtain ⟨p, e⟩ := pe
    have hpe := hgood (p, e) (List.mem_cons_self _ _)
    have hterm := sigmaTerm_ge hpe.1 hpe.2
    by_cases hrest : rest = []
    · subst hrest
      rw [facProd_cons, sigma_cons]
      simp only [facProd_nil]
      have : DeepAnalyze.sigma_from_factorization [] = 1 := rfl
      rw [this, Nat.mul_one, Nat.mul_one]
      exact hterm
    · have hrec := ih hrest (fun q hq => hgood q (List.mem_cons_of_mem _ hq))
      rw [facProd_cons, sigma_cons]
      simp only at hterm ⊢
      have hstep : (p ^ e + 1) * (facProd rest + 1) ≤
          (p ^ (e + 1) - 1) / (p - 1) * DeepAnalyze.sigma_from_factorization rest :=
        Nat.mul_le_mul hterm hrec
      have hexpand : (p ^ e + 1) * (facProd rest + 1) =
          p ^ e * facProd rest + p ^ e + facProd rest + 1 := by ring
      omega

namespace DeepAnalyze

/-- The proper-divisor sum of any n ≥ 2 computed by the engine is ≥ 1. -/
theorem spd_pos {fuel n v : Nat} (hn : 2 ≤ n) (h : sum_proper_divisors fuel n = some v) :
    1 ≤ v := by
  unfold sum_proper_divisors at h
  rw [if_neg (by omega)] at h
  cases hfac : factorize_trial_then_pollard_rho fuel n with
  | none => rw [hfac] at h; cases h
  | some fac =>
    rw [hfac] at h
    simp at h
    have hprod := factorize_prod (by omega) hfac
    have hgood := goodEntries_factorize hfac
    have hne : fac ≠ [] := by
      intro hnil
      rw [hnil] at hprod
      simp [facProd] at hprod
      omega
    have := sigma_ge_facProd_add_one hne hgood
    rw [hprod] at this
    omega

/-! ### Behaviour of the verify engine -/

theorem runAux_steps_le {fuel seed maxSteps : Nat} :
    ∀ {b step cur : Nat} {seen : List (Nat × Nat)} {peak ps : Nat} {r : VerifyResult},
      runAux fuel seed maxSteps b step cur seen peak ps = some r →
      step + b = maxSteps + 1 → r.steps ≤ maxSteps := by
  intro b
  induction b with
  | zero =>
    intro step cur seen peak ps r h hstep
    simp only [runAux] at h
    rcases Option.some.inj h with rfl
    exact Nat.le_refl _
  | succ b ih =>
    intro step cur seen peak ps r h hstep
    simp only [runAux] at h
    rcases Option.bind_eq_some.1 h with ⟨nxt, hnxt, h⟩
    by_cases hle : nxt ≤ 1
    · rw [if_pos hle] at h
      rcases Option.some.inj h with rfl
      show step ≤ maxSteps
      omega
    · rw [if_neg hle] at h
      cases hlk : lookupSeen seen nxt with
      | some j =>
        simp only [hlk] at h
        rcases Option.some.inj h with rfl
        show step ≤ maxSteps
        omega
      | none =>
        simp only [hlk] at h
        exact ih h (by omega)

theorem runAux_stepLimit {fuel seed maxSteps : Nat} :
    ∀ {b step cur : Nat} {seen : List (Nat × Nat)} {peak ps : Nat} {r : VerifyResult},
      runAux fuel seed maxSteps b step cur seen peak ps = some r →
      r.ended = Ended.step_limit →
      r.steps = maxSteps ∧ iterN fuel b cur = some r.final := by
  intro b
  induction b with
  | zero =>
    intro step cur seen peak ps r h _
    simp only [runAux] at h
    rcases Option.some.inj h with rfl
    exact ⟨rfl, rfl⟩
  | succ b ih =>
    intro step cur seen peak ps r h hend
    simp only [runAux] at h
    rcases Option.bind_eq_some.1 h with ⟨nxt, hnxt, h⟩
    by_cases hle : nxt ≤ 1
    · rw [if_pos hle] at h
      rcases Option.some.inj h with rfl
      cases hend
    · rw [if_neg hle] at h
      cases hlk : lookupSeen seen nxt with
      | some j =>
        simp only [hlk] at h
        rcases Option.some.inj h with rfl
        cases hend
      | none =>
        simp only [hlk] at h
        obtain ⟨hsteps, hiter⟩ := ih h hend
        refine ⟨hsteps, ?_⟩
        simp only [iterN]
        rw [hnxt]
        simpa using hiter

theorem runAux_terminated_one {fuel seed maxSteps : Nat} :
    ∀ {b step cur : Nat} {seen : List (Nat × Nat)} {peak ps : Nat} {r : VerifyResult},
      runAux fuel seed maxSteps b step cur seen peak ps = some r → 2 ≤ cur →
      r.ended = Ended.terminated → r.final = 1 := by
  intro b
  induction b with
  | zero =>
    intro step cur seen peak ps r h _ hend
    simp only [runAux] at h
    rcases Option.some.inj h with rfl
    cases hend
  | succ b ih =>
    intro step cur seen peak ps r h hcur hend
    simp only [runAux] at h
    rcases Option.bind_eq_some.1 h with ⟨nxt, hnxt, h⟩
    have hpos : 1 ≤ nxt := spd_pos hcur hnxt
    by_cases hle : nxt ≤ 1
    · rw [if_pos hle] at h
      rcases Option.some.inj h with rfl
      show nxt = 1
      omega
    · rw [if_neg hle] at h
      cases hlk : lookupSeen seen nxt with
      | some j =>
        simp only [hlk] at h
        rcases Option.some.inj h with rfl
        cases hend
      | none =>
        simp only [hlk] at h
        exact ih h (by omega) hend

/-- One unfolding of the loop when the aliquot step succeeds. -/
theorem runAux_cycle_exit {fuel seed maxSteps b step cur : Nat} {seen : List (Nat × Nat)}
    {peak ps nxt j : Nat}
    (hn : sum_proper_divisors fuel cur = some nxt) (h1 : 1 < nxt)
    (hj : lookupSeen seen nxt = some j) :
    ∃ r : VerifyResult,
      runAux fuel seed maxSteps (b + 1) step cur seen peak ps = some r ∧
      r.ended = Ended.cycle (step - j) ∧ r.final = nxt ∧ r.steps = step := by
  refine ⟨⟨seed, step, Ended.cycle (step - j), nxt, if nxt > peak then nxt else peak,
    if nxt > peak then step else ps,
    bit_length (if nxt > peak then nxt else peak), true, ""⟩, ?_, rfl, rfl, rfl⟩
  simp only [runAux]
  rw [hn]
  simp [show ¬ nxt ≤ 1 from by omega, hj]

end DeepAnalyze

/-! ### Claim C1 -/

/-- C1: for every natural number n ≥ 1, the product of p^e over all (p, e)
entries of the factorization returned by `factorize` equals n exactly — for
deep_analyze.py's deterministic factorizer and for analyze.py's randomized
factorizer under every stream of random draws; for n = 1 the factorization
is the empty mapping, whose product is 1. -/
theorem claim_C1 :
    (∀ (n fuel : Nat) (fac : List (Nat × Nat)), 1 ≤ n →
        DeepAnalyze.factorize_trial_then_pollard_rho fuel n = some fac →
        facProd fac = n) ∧
    (∀ (n fuel : Nat) (attempts fac : List (Nat × Nat)), 1 ≤ n →
        Analyze.factorize fuel attempts n = some fac → facProd fac = n) ∧
    (∀ fuel : Nat, DeepAnalyze.factorize_trial_then_pollard_rho fuel 1 = some []) :=
  ⟨fun _ _ _ h1 h => DeepAnalyze.factorize_prod h1 h,
   fun _ _ _ _ h1 h => Analyze.factorizeA_prod h1 h,
   fun _ => rfl⟩

/-- Witness for C1 at n = 12: the deep factorizer returns the mapping
2 ↦ 2, 3 ↦ 1 and its product is 12. -/
theorem claim_C1_witness :
    DeepAnalyze.factorize_trial_then_pollard_rho 64 12 = some [(2, 2), (3, 1)] ∧
      facProd [(2, 2), (3, 1)] = 12 :=
  ⟨by rfl, claim_C1.1 12 64 [(2, 2), (3, 1)] (by decide) (by rfl)⟩

/-! ### Claim C4 -/

/-- C4: the verify engine performs at most maxSteps iterations; whenever it
returns with classification step_limit, the reported number of steps is
exactly maxSteps and the final value is the maxSteps-fold aliquot iterate of
the seed (the current state when the budget ran out). -/
theorem claim_C4 :
    ∀ (fuel seed maxSteps : Nat) (r : DeepAnalyze.VerifyResult),
      DeepAnalyze.run_aliquot_verify fuel seed maxSteps = some r →
      r.steps ≤ maxSteps ∧
      (r.ended = DeepAnalyze.Ended.step_limit →
        r.steps = maxSteps ∧ DeepAnalyze.iterN fuel maxSteps seed = some r.final) := by
  intro fuel seed maxSteps r h
  exact ⟨DeepAnalyze.runAux_steps_le h (by omega),
    fun hend => DeepAnalyze.runAux_stepLimit h hend⟩

/-- Witness for C4: seed 5 with budget 0 exits immediately with step_limit,
0 steps executed and final value equal to the seed. -/
theorem claim_C4_witness :
    (⟨5, 0, DeepAnalyze.Ended.step_limit, 5, 5, 0, 3, true, ""⟩ :
        DeepAnalyze.VerifyResult).steps ≤ 0 ∧
      DeepAnalyze.iterN 64 0 5 = some 5 := by
  have h := claim_C4 64 5 0
    ⟨5, 0, DeepAnalyze.Ended.step_limit, 5, 5, 0, 3, true, ""⟩ (by rfl)
  exact ⟨h.1, by simpa using (h.2 rfl).2⟩

/-! ### Claim C5 -/

/-- C5: when the next aliquot value is already a key of the visited map
(first recorded at step j, revisited entering step k), the engine stops with
classification cycle of length k - j and final value the revisited value;
seed 220 with any budget ≥ 2 ends cycle_2 after 220 → 284 → 220, and seed 6
with any budget ≥ 1 ends cycle_1 at step 1. -/
theorem claim_C5 :
    (∀ (fuel seed maxSteps b step cur : Nat) (seen : List (Nat × Nat)) (peak ps nxt j : Nat),
        DeepAnalyze.sum_proper_divisors fuel cur = some nxt → 1 < nxt →
        DeepAnalyze.lookupSeen seen nxt = some j →
        ∃ r : DeepAnalyze.VerifyResult,
          DeepAnalyze.runAux fuel seed maxSteps (b + 1) step cur seen peak ps = some r ∧
          r.ended = DeepAnalyze.Ended.cycle (step - j) ∧ r.final = nxt ∧ r.steps = step) ∧
    (∀ b : Nat, DeepAnalyze.run_aliquot_verify 64 220 (b + 2) =
        some ⟨220, 2, DeepAnalyze.Ended.cycle 2, 220, 284, 1, 9, true, ""⟩) ∧
    (∀ b : Nat, DeepAnalyze.run_aliquot_verify 64 6 (b + 1) =
        some ⟨6, 1, DeepAnalyze.Ended.cycle 1, 6, 6, 0, 3, true, ""⟩) ∧
    DeepAnalyze.Ended.render (DeepAnalyze.Ended.cycle 2) = "cycle_2" ∧
    DeepAnalyze.Ended.render (DeepAnalyze.Ended.cycle 1) = "cycle_1" := by
  refine ⟨?_, ?_, ?_, by decide, by decide⟩
  · intro fuel seed maxSteps b step cur seen peak ps nxt j hn h1 hj
    exact DeepAnalyze.runAux_cycle_exit hn h1 hj
  · intro b
    have h220 : DeepAnalyze.sum_proper_divisors 64 220 = some 284 := by rfl
    have h284 : DeepAnalyze.sum_proper_divisors 64 284 = some 220 := by rfl
    have hb : DeepAnalyze.bit_length 284 = 9 := by rfl
    show DeepAnalyze.runAux 64 220 (b + 2) (b + 1 + 1) 1 220 [(220, 0)] 220 0 = _
    simp only [DeepAnalyze.runAux]
    rw [h220]
    simp [DeepAnalyze.lookupSeen]
    rw [h284]
    simp [DeepAnalyze.lookupSeen, hb]
  · intro b
    have h6 : DeepAnalyze.sum_proper_divisors 64 6 = some 6 := by rfl
    have hb : DeepAnalyze.bit_length 6 = 3 := by rfl
    show DeepAnalyze.runAux 64 6 (b + 1) (b + 1) 1 6 [(6, 0)] 6 0 = _
    simp only [DeepAnalyze.runAux]
    rw [h6]
    simp [DeepAnalyze.lookupSeen, hb]

/-- Witness for C5's general conjunct at the concrete state reached by seed 6:
next value 6 is found in the visited map at step 0 while entering step 1. -/
theorem claim_C5_witness :
    ∃ r : DeepAnalyze.VerifyResult,
      DeepAnalyze.runAux 64 6 1 1 1 6 [(6, 0)] 6 0 = some r ∧
      r.ended = DeepAnalyze.Ended.cycle (1 - 0) ∧ r.final = 6 ∧ r.steps = 1 :=
  claim_C5.1 64 6 1 0 1 6 [(6, 0)] 6 0 6 0 (by rfl) (by omega) (by rfl)

/-! ### Claim C8 -/

/-- C8 as stated is false for deep_analyze.py's deterministic rho: on the
composite 25 it returns 25 itself (the cycle closed with gcd 25). -/
theorem claim_C8_counterexample :
    DeepAnalyze.rho 8 25 = some 25 ∧ ¬ (25 < 25) ∧ ¬ Nat.Prime 25 :=
  ⟨by rfl, by omega, by norm_num⟩

/-- C8 amended: analyze.py's randomized pollard_rho only ever returns a
nontrivial divisor: for composite n > 1 a returned d satisfies
1 < d < n and d ∣ n, with d = 2 immediately for even n and d = 3 for odd
multiples of 3; deep_analyze.py's deterministic rho guarantees only
1 < d and d ∣ n and may return n itself. -/
theorem claim_C8 :
    (∀ (fuel n : Nat) (attempts rest : List (Nat × Nat)) (d : Nat),
        Analyze.pollard_rho fuel n attempts = some (d, rest) →
        1 < n → ¬ n.Prime → 1 < d ∧ d < n ∧ d ∣ n) ∧
    (∀ (fuel n : Nat) (attempts : List (Nat × Nat)), n % 2 = 0 →
        Analyze.pollard_rho fuel n attempts = some (2, attempts)) ∧
    (∀ (fuel n : Nat) (attempts : List (Nat × Nat)), n % 2 ≠ 0 → n % 3 = 0 →
        Analyze.pollard_rho fuel n attempts = some (3, attempts)) ∧
    (∀ (fuel n d : Nat), DeepAnalyze.rho fuel n = some d → 1 < n → 1 < d ∧ d ∣ n) := by
  refine ⟨?_, ?_, ?_, ?_⟩
  · intro fuel n attempts rest d h hn hnp
    unfold Analyze.pollard_rho at h
    by_cases h2 : n % 2 = 0
    · rw [if_pos h2] at h
      simp at h
      obtain ⟨rfl, rfl⟩ := h
      have hn2 : n ≠ 2 := fun he => hnp (he ▸ Nat.prime_two)
      exact ⟨by omega, by omega, Nat.dvd_of_mod_eq_zero h2⟩
    · rw [if_neg h2] at h
      by_cases h3 : n % 3 = 0
      · rw [if_pos h3] at h
        simp at h
        obtain ⟨rfl, rfl⟩ := h
        have hn3 : n ≠ 3 := fun he => hnp (he ▸ Nat.prime_three)
        exact ⟨by omega, by omega, Nat.dvd_of_mod_eq_zero h3⟩
      · rw [if_neg h3] at h
        have hs := Analyze.rhoTries_spec h
        have hd0 : d ≠ 0 := by
          intro h0
          subst h0
          have := Nat.eq_zero_of_zero_dvd hs.1
          omega
        have hle := Nat.le_of_dvd (by omega) hs.1
        have := hs.2.1
        have := hs.2.2
        exact ⟨by omega, by omega, hs.1⟩
  · intro fuel n attempts h2
    unfold Analyze.pollard_rho
    rw [if_pos h2]
  · intro fuel n attempts h2 h3
    unfold Analyze.pollard_rho
    rw [if_neg h2, if_pos h3]
  · intro fuel n d h hn
    have hs := DeepAnalyze.rho_dvd h
    have hd0 : d ≠ 0 := by
      intro h0
      subst h0
      have := Nat.eq_zero_of_zero_dvd hs.1
      omega
    have := hs.2
    exact ⟨by omega, hs.1⟩

/-- Witness for C8 on the semiprime 10403 = 101 · 103: with random draws
c = 1, x = 2 the search returns the nontrivial divisor 101. -/
theorem claim_C8_witness : 1 < 101 ∧ 101 < 10403 ∧ (101 : Nat) ∣ 10403 :=
  claim_C8.1 100 10403 [(1, 2)] [] 101 (by rfl) (by norm_num) (by norm_num)

/-! ### Claim C9 -/

/-- C9 as stated is false on the code: for seed 0 (a seed < 1) with a
positive budget, run_aliquot_verify reports steps = 1, not steps = 0. -/
theorem claim_C9_counterexample :
    DeepAnalyze.run_aliquot_verify 64 0 5 =
      some ⟨0, 1, DeepAnalyze.Ended.terminated, 0, 0, 0, 0, true, ""⟩ ∧
    (DeepAnalyze.run_aliquot_verify 64 0 5).map DeepAnalyze.VerifyResult.steps ≠ some 0 :=
  ⟨by rfl, by decide⟩

/-- C9 amended: for the degenerate seed 0 the engine raises no error and
terminates with final value 0, but it consumes one loop iteration when the
budget allows one (steps = 1); with budget 0 it reports step_limit with
steps = 0.  (The batch driver additionally skips seeds ≤ 0 entirely, so the
engine never sees them in production.) -/
theorem claim_C9 :
    (∀ fuel b : Nat, DeepAnalyze.run_aliquot_verify fuel 0 (b + 1) =
        some ⟨0, 1, DeepAnalyze.Ended.terminated, 0, 0, 0, 0, true, ""⟩) ∧
    (∀ fuel : Nat, DeepAnalyze.run_aliquot_verify fuel 0 0 =
        some ⟨0, 0, DeepAnalyze.Ended.step_limit, 0, 0, 0, 0, true, ""⟩) := by
  constructor
  · intro fuel b
    have h0 : DeepAnalyze.sum_proper_divisors fuel 0 = some 0 := rfl
    show DeepAnalyze.runAux fuel 0 (b + 1) (b + 1) 1 0 [(0, 0)] 0 0 = _
    simp only [DeepAnalyze.runAux]
    rw [h0]
    simp [DeepAnalyze.bit_length, DeepAnalyze.bitLenF]
  · intro fuel
    rfl

/-! ### Claim C10 -/

/-- C10: for n ≥ 2 every proper-divisor sum the engine computes is at least
1 (since sigma(n) ≥ n + 1), and consequently a run from a seed ≥ 2 that ends
with classification terminated has final value exactly 1, never 0. -/
theorem claim_C10 :
    (∀ (fuel n v : Nat), 2 ≤ n → DeepAnalyze.sum_proper_divisors fuel n = some v →
        1 ≤ v) ∧
    (∀ (fuel seed maxSteps : Nat) (r : DeepAnalyze.VerifyResult), 2 ≤ seed →
        DeepAnalyze.run_aliquot_verify fuel seed maxSteps = some r →
        r.ended = DeepAnalyze.Ended.terminated → r.final = 1) :=
  ⟨fun _ _ _ hn h => DeepAnalyze.spd_pos hn h,
   fun _ _ _ _ hs h hend => DeepAnalyze.runAux_terminated_one h hs hend⟩

/-- Witness for C10: the prime seed 2 terminates at final value 1. -/
theorem claim_C10_witness :
    (1 : Nat) ≤ 1 ∧
      (⟨2, 1, DeepAnalyze.Ended.terminated, 1, 2, 0, 2, true, ""⟩ :
        DeepAnalyze.VerifyResult).final = 1 :=
  ⟨claim_C10.1 64 2 1 (by omega) (by rfl),
   claim_C10.2 64 2 3 ⟨2, 1, DeepAnalyze.Ended.terminated, 1, 2, 0, 2, true, ""⟩
     (by omega) (by rfl) (by rfl)⟩

/-! ### Completeness of the Miller-Rabin test for primes

For every prime p, both copies of `is_probable_prime` answer true: a prime
is never rejected, whatever the witness list.  This backs the branch
analysis of the factorizers on prime residuals. -/

theorem powModF_eq : ∀ (fuel b e m : Nat), e < 2 ^ fuel → powModF fuel b e m = b ^ e % m := by
  intro fuel
  induction fuel with
  | zero =>
    intro b e m he
    have he0 : e = 0 := by
      have : e < 1 := by simpa using he
      omega
    subst he0
    simp [powModF_zero]
  | succ f ih =>
    intro b e m he
    rw [powModF_succ]
    by_cases he0 : e = 0
    · subst he0; simp
    · rw [if_neg he0]
      have hehalf : e / 2 < 2 ^ f := by
        have h1 : e < 2 ^ (f + 1) := he
        rw [pow_succ] at h1
        omega
      have hbb : powModF f (b * b % m) (e / 2) m = (b * b) ^ (e / 2) % m := by
        rw [ih (b * b % m) (e / 2) m hehalf, ← Nat.pow_mod]
      have hmain : (b * b) ^ (e / 2) = b ^ (2 * (e / 2)) := by
        rw [← pow_two, ← pow_mul]
      by_cases hodd : e % 2 = 1
      · rw [if_pos hodd, hbb]
        have he2 : 2 * (e / 2) + 1 = e := by omega
        calc (b * b) ^ (e / 2) % m * (b % m) % m
            = (b * b) ^ (e / 2) * b % m := by rw [← Nat.mul_mod]
          _ = b ^ e % m := by rw [hmain, ← pow_succ, he2]
      · rw [if_neg hodd, hbb]
        have he2 : 2 * (e / 2) = e := by omega
        rw [hmain, he2]

theorem powMod_eq (b e m : Nat) : powMod b e m = b ^ e % m :=
  powModF_eq (e + 1) b e m (by
    have h1 : e < 2 ^ e := Nat.lt_two_pow e
    have h2 : (2 : Nat) ^ e ≤ 2 ^ (e + 1) := Nat.pow_le_pow_right (by omega) (by omega)
    omega)

theorem oddPartF_spec : ∀ (fuel d : Nat), 0 < d → d ≤ fuel →
    (oddPartF fuel d).1 % 2 = 1 ∧ (oddPartF fuel d).1 * 2 ^ (oddPartF fuel d).2 = d := by
  intro fuel
  induction fuel with
  | zero => intro d h1 h2; omega
  | succ f ih =>
    intro d h1 h2
    rw [oddPartF_succ]
    by_cases he : d % 2 = 0
    · rw [if_pos he]
      have hd2 : 0 < d / 2 := by omega
      have hle : d / 2 ≤ f := by omega
      have hr := ih (d / 2) hd2 hle
      refine ⟨hr.1, ?_⟩
      show (oddPartF f (d / 2)).1 * 2 ^ ((oddPartF f (d / 2)).2 + 1) = d
      rw [pow_succ, ← Nat.mul_assoc, hr.2]
      omega
    · rw [if_neg he]
      exact ⟨by omega, by simp⟩

theorem oddPart_spec {d : Nat} (h : 0 < d) :
    (oddPart d).1 % 2 = 1 ∧ (oddPart d).1 * 2 ^ (oddPart d).2 = d :=
  oddPartF_spec d d h (Nat.le_refl d)

theorem squareProbe_hit : ∀ (k x n j : Nat), 1 ≤ j → j ≤ k → x ^ 2 ^ j % n = n - 1 →
    squareProbe k x n = true := by
  intro k
  induction k with
  | zero => intro x n j h1 h2 _; omega
  | succ k ih =>
    intro x n j h1 h2 hhit
    rw [squareProbe_succ]
    by_cases hx2 : x * x % n = n - 1
    · rw [if_pos hx2]
    · rw [if_neg hx2]
      have hj2 : 2 ≤ j := by
        by_contra hlt
        apply hx2
        have hj1 : j = 1 := by omega
        subst hj1
        calc x * x % n = x ^ 2 % n := by rw [pow_two]
          _ = n - 1 := by simpa using hhit
      apply ih (x * x % n) n (j - 1) (by omega) (by omega)
      have e1 : (x * x % n) ^ 2 ^ (j - 1) % n = (x * x) ^ 2 ^ (j - 1) % n := by
        rw [← Nat.pow_mod]
      have e2 : (x * x) ^ 2 ^ (j - 1) = x ^ 2 ^ j := by
        rw [← pow_two, ← pow_mul]
        congr 1
        conv_rhs => rw [show j = (j - 1) + 1 by omega]
        rw [pow_succ]
        ring
      rw [e1, e2, hhit]

theorem mr_descent {p : Nat} [Fact p.Prime] (α : ZMod p) (hα : α ≠ 0) {d s : Nat}
    (hds : d * 2 ^ s = p - 1) :
    α ^ d = 1 ∨ ∃ r, r < s ∧ α ^ (d * 2 ^ r) = -1 := by
  have key : ∀ t, t ≤ s → α ^ (d * 2 ^ t) = 1 →
      α ^ d = 1 ∨ ∃ r, r < s ∧ α ^ (d * 2 ^ r) = -1 := by
    intro t
    induction t with
    | zero =>
      intro _ h
      left
      simpa using h
    | succ t iht =>
      intro hts h
      have hsq : α ^ (d * 2 ^ t) * α ^ (d * 2 ^ t) = 1 := by
        rw [← pow_add]
        have he : d * 2 ^ t + d * 2 ^ t = d * 2 ^ (t + 1) := by ring
        rw [he]
        exact h
      rcases mul_self_eq_one_iff.1 hsq with h1 | h1
      · exact iht (by omega) h1
      · exact Or.inr ⟨t, by omega, h1⟩
  apply key s (Nat.le_refl s)
  rw [hds]
  exact ZMod.pow_card_sub_one_eq_one hα

theorem zmod_natCast_eq_one {p x : Nat} (hp2 : 2 < p) (hlt : x < p)
    (h : (x : ZMod p) = 1) : x = 1 := by
  haveI : Fact (1 < p) := ⟨by omega⟩
  haveI : NeZero p := ⟨by omega⟩
  calc x = ((x : ZMod p)).val := (ZMod.val_cast_of_lt hlt).symm
    _ = (1 : ZMod p).val := by rw [h]
    _ = 1 := ZMod.val_one p

theorem zmod_natCast_eq_neg_one {p x : Nat} (hp2 : 2 < p) (hlt : x < p)
    (h : (x : ZMod p) = -1) : x = p - 1 := by
  obtain ⟨k, rfl⟩ : ∃ k, p = k + 1 := ⟨p - 1, by omega⟩
  have hv : ((x : ZMod (k + 1))).val = (-1 : ZMod (k + 1)).val := by rw [h]
  rw [ZMod.val_cast_of_lt hlt] at hv
  have hneg : (-1 : ZMod (k + 1)).val = k := ZMod.val_neg_one k
  omega

theorem zmod_pow_cast {p a e : Nat} : ((a ^ e % p : Nat) : ZMod p) = (a : ZMod p) ^ e := by
  rw [ZMod.natCast_mod]
  push_cast
  rfl

theorem mrCheck_complete {p a d s : Nat} (hp : p.Prime) (hp2 : 2 < p)
    (ha : ¬ p ∣ a) (hds : d * 2 ^ s = p - 1) :
    mrCheck p d s a = true := by
  haveI : Fact p.Prime := ⟨hp⟩
  have hα : (a : ZMod p) ≠ 0 := fun h => ha ((ZMod.natCast_zmod_eq_zero_iff_dvd a p).1 h)
  have hx : powMod a d p = a ^ d % p := powMod_eq a d p
  have hlt : a ^ d % p < p := Nat.mod_lt _ (by omega)
  rcases mr_descent (a : ZMod p) hα hds with h1 | ⟨r, hr, h1⟩
  · have hone : a ^ d % p = 1 :=
      zmod_natCast_eq_one hp2 hlt (by rw [zmod_pow_cast]; exact h1)
    unfold mrCheck
    rw [hx, hone]
    simp
  · rcases Nat.eq_zero_or_pos r with hr0 | hrpos
    · subst hr0
      have h1' : (a : ZMod p) ^ d = -1 := by simpa using h1
      have hneg : a ^ d % p = p - 1 :=
        zmod_natCast_eq_neg_one hp2 hlt (by rw [zmod_pow_cast]; exact h1')
      unfold mrCheck
      rw [hx, hneg]
      simp
    · unfold mrCheck
      rw [hx]
      by_cases hx1 : a ^ d % p = 1 ∨ a ^ d % p = p - 1
      · rw [if_pos hx1]
      · rw [if_neg hx1]
        apply squareProbe_hit (s - 1) (a ^ d % p) p r hrpos (by omega)
        have e1 : (a ^ d % p) ^ 2 ^ r % p = a ^ (d * 2 ^ r) % p := by
          rw [← Nat.pow_mod, ← pow_mul]
        rw [e1]
        have hltr : a ^ (d * 2 ^ r) % p < p := Nat.mod_lt _ (by omega)
        exact zmod_natCast_eq_neg_one hp2 hltr (by rw [zmod_pow_cast]; exact h1)

theorem smallPre_prime {p : Nat} (hp : p.Prime) :
    ∀ l : List Nat, (∀ q ∈ l, q.Prime) →
      smallPre p l = if p ∈ l then some true else none := by
  intro l
  induction l with
  | nil => simp [smallPre]
  | cons q tl ih =>
    intro hl
    simp only [smallPre]
    by_cases hq : p = q
    · subst hq
      simp
    · rw [if_neg hq]
      have hq2 : q.Prime := hl q (List.mem_cons_self _ _)
      have hnd : ¬ p % q = 0 := by
        intro hmod
        have hdvd : q ∣ p := Nat.dvd_of_mod_eq_zero hmod
        rcases (Nat.Prime.eq_one_or_self_of_dvd hp q hdvd) with h1 | h1
        · exact Nat.Prime.one_lt hq2 |>.ne' h1
        · exact hq h1.symm
      rw [if_neg hnd, ih (fun r hr => hl r (List.mem_cons_of_mem _ hr))]
      simp [List.mem_cons, hq]

theorem small_primes_all_prime : ∀ q ∈ small_primes, q.Prime := by
  intro q hq
  fin_cases hq <;> norm_num

theorem witnessLoopA_complete {p d s : Nat} (hp : p.Prime) (hp2 : 2 < p)
    (hds : d * 2 ^ s = p - 1) :
    ∀ l : List Nat, Analyze.witnessLoop p d s l = true := by
  intro l
  induction l with
  | nil => rfl
  | cons a tl ih =>
    simp only [Analyze.witnessLoop]
    by_cases h0 : a % p = 0
    · rw [if_pos h0]
      exact ih
    · rw [if_neg h0]
      have hnd : ¬ p ∣ a % p := by
        intro hdvd
        exact h0 (Nat.eq_zero_of_dvd_of_lt hdvd (Nat.mod_lt _ (by omega)))
      rw [if_pos (mrCheck_complete hp hp2 hnd hds)]
      exact ih

theorem witnessLoopD_complete {p d s : Nat} (hp : p.Prime) (hp2 : 2 < p)
    (hds : d * 2 ^ s = p - 1) :
    ∀ l : List Nat, DeepAnalyze.witnessLoop p d s l = true := by
  intro l
  induction l with
  | nil => rfl
  | cons a tl ih =>
    simp only [DeepAnalyze.witnessLoop]
    by_cases h0 : a % p = 0
    · rw [if_pos h0]
    · rw [if_neg h0]
      have hnd : ¬ p ∣ a := by
        intro hdvd
        obtain ⟨k, rfl⟩ := hdvd
        exact h0 (Nat.mul_mod_right p k)
      rw [if_pos (mrCheck_complete hp hp2 hnd hds)]
      exact ih

theorem two_mem_small_primes : (2 : Nat) ∈ small_primes := by decide

theorem prime_gt_two_of_not_mem {p : Nat} (hp : p.Prime) (hmem : p ∉ small_primes) :
    2 < p := by
  have h2 := hp.two_le
  rcases Nat.lt_or_ge 2 p with h | h
  · exact h
  · have : p = 2 := by omega
    subst this
    exact absurd two_mem_small_primes hmem

theorem is_probable_prime_A_complete {p : Nat} (hp : p.Prime) :
    Analyze.is_probable_prime p = true := by
  unfold Analyze.is_probable_prime
  rw [if_neg (by have := hp.two_le; omega : ¬ p < 2)]
  rw [smallPre_prime hp small_primes small_primes_all_prime]
  by_cases hmem : p ∈ small_primes
  · rw [if_pos hmem]
  · rw [if_neg hmem]
    have hp2 := prime_gt_two_of_not_mem hp hmem
    have hodd := oddPart_spec (show 0 < p - 1 by omega)
    exact witnessLoopA_complete hp hp2 hodd.2 mrBases

theorem is_probable_prime_D_complete {p : Nat} (hp : p.Prime) :
    DeepAnalyze.is_probable_prime p = true := by
  unfold DeepAnalyze.is_probable_prime
  rw [if_neg (by have := hp.two_le; omega : ¬ p < 2)]
  rw [smallPre_prime hp small_primes small_primes_all_prime]
  by_cases hmem : p ∈ small_primes
  · rw [if_pos hmem]
  · rw [if_neg hmem]
    have hp2 := prime_gt_two_of_not_mem hp hmem
    have hodd := oddPart_spec (show 0 < p - 1 by omega)
    exact witnessLoopD_complete hp hp2 hodd.2 mrBases

namespace DeepAnalyze

/-! ### Full specification of the trial-division phase -/

theorem stripCount_some : ∀ (fuel p n : Nat), 2 ≤ p → 0 < n → n < 2 ^ fuel →
    ∃ c m, stripCount fuel p n = some (c, m) := by
  intro fuel
  induction fuel with
  | zero =>
    intro p n _ hn hlt
    simp at hlt
    omega
  | succ f ih =>
    intro p n hp hn hlt
    by_cases hd : n % p = 0
    · have hdvd := Nat.dvd_of_mod_eq_zero hd
      have hn2 : 0 < n / p := Nat.div_pos (Nat.le_of_dvd hn hdvd) (by omega)
      have hlt2 : n / p < 2 ^ f := by
        have h1 : n / p ≤ n / 2 := Nat.div_le_div_left hp (by omega)
        rw [pow_succ] at hlt
        omega
      obtain ⟨c, m, hcm⟩ := ih p (n / p) hp hn2 hlt2
      refine ⟨c + 1, m, ?_⟩
      simp only [stripCount, if_pos hd]
      exact Option.bind_eq_some.2 ⟨(c, m), hcm, rfl⟩
    · exact ⟨0, n, by simp [stripCount, hd]⟩

theorem smallsLoop_full :
    ∀ (ps : List Nat) (fac : List (Nat × Nat)) (n : Nat), 0 < n → (∀ p ∈ ps, 2 ≤ p) →
      ∃ fac' n', smallsLoop ps fac n = some (fac', n') ∧ n' ∣ n ∧ 0 < n' ∧
        (∀ p ∈ ps, ¬ p ∣ n') ∧
        (∀ q, q ∈ facKeys fac' → q ∈ facKeys fac ∨ q ∈ ps) := by
  intro ps
  induction ps with
  | nil =>
    intro fac n hn _
    exact ⟨fac, n, rfl, dvd_rfl, hn, by simp, fun q hq => Or.inl hq⟩
  | cons p tl ih =>
    intro fac n hn hps
    have hp2 : 2 ≤ p := hps p (List.mem_cons_self _ _)
    by_cases hd : n % p = 0
    · obtain ⟨c, m, hcm⟩ := stripCount_some (n + 1) p n hp2 hn
        (lt_of_lt_of_le (Nat.lt_two_pow n) (Nat.pow_le_pow_right (by omega) (by omega)))
      have hspec := stripCount_spec hcm
      have hm : 0 < m := by
        rcases Nat.eq_zero_or_pos m with h0 | h
        · rw [h0, Nat.mul_zero] at hspec
          omega
        · exact h
      obtain ⟨fac', n', hrec, hdvd, hn', hnd, hkeys⟩ :=
        ih (addFactor fac p c) m hm (fun q hq => hps q (List.mem_cons_of_mem _ hq))
      have hmn : m ∣ n := ⟨p ^ c, by rw [← hspec.1]; ring⟩
      refine ⟨fac', n', ?_, dvd_trans hdvd hmn, hn', ?_, ?_⟩
      · simp only [smallsLoop, if_pos hd]
        exact Option.bind_eq_some.2 ⟨(c, m), hcm, hrec⟩
      · intro q hq
        rcases List.mem_cons.1 hq with rfl | hq'
        · exact fun hdv => hspec.2 (dvd_trans hdv hdvd)
        · exact hnd q hq'
      · intro q hq
        rcases hkeys q hq with h | h
        · rcases mem_facKeys_addFactor h with h' | h'
          · exact Or.inl h'
          · exact Or.inr (by rw [h']; exact List.mem_cons_self _ _)
        · exact Or.inr (List.mem_cons_of_mem _ h)
    · obtain ⟨fac', n', hrec, hdvd, hn', hnd, hkeys⟩ :=
        ih fac n hn (fun q hq => hps q (List.mem_cons_of_mem _ hq))
      refine ⟨fac', n', by simp only [smallsLoop, if_neg hd]; exact hrec, hdvd, hn', ?_,
        fun q hq => (hkeys q hq).imp id (List.mem_cons_of_mem _)⟩
      intro q hq
      rcases List.mem_cons.1 hq with rfl | hq'
      · intro hdv
        obtain ⟨k, hk⟩ := dvd_trans hdv hdvd
        exact hd (by rw [hk]; exact Nat.mul_mod_right q k)
      · exact hnd q hq'

theorem nodup_smallsLoop :
    ∀ {ps : List Nat} {fac : List (Nat × Nat)} {n : Nat} {fac' : List (Nat × Nat)} {n' : Nat},
      smallsLoop ps fac n = some (fac', n') →
      (facKeys fac).Nodup → (facKeys fac').Nodup := by
  intro ps
  induction ps with
  | nil =>
    intro fac n fac' n' h hnd
    simp [smallsLoop] at h
    rwa [← h.1]
  | cons p tl ih =>
    intro fac n fac' n' h hnd
    simp only [smallsLoop] at h
    by_cases hd : n % p = 0
    · rw [if_pos hd] at h
      rcases Option.bind_eq_some.1 h with ⟨cm, _, hrec⟩
      exact ih hrec (nodup_facKeys_addFactor hnd)
    · rw [if_neg hd] at h
      exact ih h hnd

theorem nodup_wheelLoop {fuel : Nat} :
    ∀ {f step : Nat} {fac : List (Nat × Nat)} {n : Nat} {fac' : List (Nat × Nat)} {n' : Nat},
      wheelLoop fuel f step fac n = some (fac', n') →
      (facKeys fac).Nodup → (facKeys fac').Nodup := by
  induction fuel with
  | zero =>
    intro f step fac n fac' n' h hnd
    simp only [wheelLoop] at h
    by_cases hc : f * f ≤ n ∧ f ≤ 20000
    · rw [if_pos hc] at h; cases h
    · rw [if_neg hc] at h
      simp at h
      rwa [← h.1]
  | succ fl ih =>
    intro f step fac n fac' n' h hnd
    simp only [wheelLoop] at h
    by_cases hc : f * f ≤ n ∧ f ≤ 20000
    · rw [if_pos hc] at h
      by_cases hd : n % f = 0
      · rw [if_pos hd] at h
        rcases Option.bind_eq_some.1 h with ⟨cm, _, hrec⟩
        exact ih hrec (nodup_facKeys_addFactor hnd)
      · rw [if_neg hd] at h
        exact ih h hnd
    · rw [if_neg hc] at h
      simp at h
      rwa [← h.1]

/-! ### The wheel reaches a residual that is 1 or prime -/

/-- Master invariant of the wheel: no number in `[2, f)` divides `n`, the
candidate `f` and the step alternate through the residues 5 and 1 mod 6, and
the fuel dominates the remaining candidates up to the 20000 cap.  On these
conditions the wheel terminates, only records prime factors, and leaves a
residual with no divisor below some `g` with `g * g > n'`. -/
theorem wheelLoop_master : ∀ (fuel : Nat) {f step n : Nat} {fac : List (Nat × Nat)},
    (∀ m, 2 ≤ m → m < f → ¬ m ∣ n) →
    ((f % 6 = 5 ∧ step = 2) ∨ (f % 6 = 1 ∧ step = 4)) →
    41 ≤ f → 0 < n → n < 20001 * 20001 →
    20001 ≤ f + 2 * fuel →
    ∃ fac' n', wheelLoop fuel f step fac n = some (fac', n') ∧
      n' ∣ n ∧ 0 < n' ∧
      (∃ g, (∀ m, 2 ≤ m → m < g → ¬ m ∣ n') ∧ n' < g * g) ∧
      (∀ q, q ∈ facKeys fac' → q ∈ facKeys fac ∨ q.Prime) := by
  intro fuel
  induction fuel with
  | zero =>
    intro f step n fac hQ hstate hf hn hnb hfuel
    have hc : ¬ (f * f ≤ n ∧ f ≤ 20000) := by
      intro hcc
      omega
    refine ⟨fac, n, by simp only [wheelLoop]; rw [if_neg hc], dvd_rfl, hn, ⟨f, hQ, ?_⟩,
      fun q hq => Or.inl hq⟩
    have hsq : 20001 * 20001 ≤ f * f := Nat.mul_le_mul (by omega) (by omega)
    omega
  | succ fl ih =>
    intro f step n fac hQ hstate hf hn hnb hfuel
    by_cases hc : f * f ≤ n ∧ f ≤ 20000
    · have hstate' : ((f + step) % 6 = 5 ∧ 6 - step = 2) ∨
          ((f + step) % 6 = 1 ∧ 6 - step = 4) := by
        rcases hstate with ⟨h6, h2⟩ | ⟨h6, h4⟩
        · exact Or.inr ⟨by omega, by omega⟩
        · exact Or.inl ⟨by omega, by omega⟩
      by_cases hd : n % f = 0
      · obtain ⟨c, m, hcm⟩ := stripCount_some (n + 1) f n (by omega) hn
          (lt_of_lt_of_le (Nat.lt_two_pow n) (Nat.pow_le_pow_right (by omega) (by omega)))
        have hspec := stripCount_spec hcm
        have hm : 0 < m := by
          rcases Nat.eq_zero_or_pos m with h0 | h
          · rw [h0, Nat.mul_zero] at hspec
            omega
          · exact h
        have hmn : m ∣ n := ⟨f ^ c, by rw [← hspec.1]; ring⟩
        have hfprime : f.Prime := by
          rw [Nat.prime_def_lt]
          refine ⟨by omega, fun m2 hm2 hdvd => ?_⟩
          by_contra hne
          have h2le : 2 ≤ m2 := by
            rcases Nat.eq_zero_or_pos m2 with h0 | h1
            · subst h0
              have : f = 0 := Nat.eq_zero_of_zero_dvd hdvd
              omega
            · omega
          exact hQ m2 h2le hm2 (dvd_trans hdvd (Nat.dvd_of_mod_eq_zero hd))
        have hQ' : ∀ m2, 2 ≤ m2 → m2 < f + step → ¬ m2 ∣ m := by
          intro m2 h2 hlt hdvd
          rcases Nat.lt_or_ge m2 f with hltf | hgef
          · exact hQ m2 h2 hltf (dvd_trans hdvd hmn)
          · rcases Nat.eq_or_lt_of_le hgef with rfl | hgt
            · exact hspec.2 hdvd
            · have h23 : m2 % 2 = 0 ∨ m2 % 3 = 0 := by
                rcases hstate with ⟨h6, h2s⟩ | ⟨h6, h4s⟩ <;> omega
              rcases h23 with he | he
              · exact hQ 2 (by omega) (by omega)
                  (dvd_trans (dvd_trans (Nat.dvd_of_mod_eq_zero he) hdvd) hmn)
              · exact hQ 3 (by omega) (by omega)
                  (dvd_trans (dvd_trans (Nat.dvd_of_mod_eq_zero he) hdvd) hmn)
        obtain ⟨fac', n', hrec, hdvd', hn', hg, hkeys⟩ :=
          ih hQ' hstate' (by omega) hm (by have := Nat.le_of_dvd hn hmn; omega)
            (by omega)
        refine ⟨fac', n', ?_, dvd_trans hdvd' hmn, hn', hg, ?_⟩
        · simp only [wheelLoop]
          rw [if_pos hc, if_pos hd]
          exact Option.bind_eq_some.2 ⟨(c, m), hcm, hrec⟩
        · intro q hq
          rcases hkeys q hq with h | h
          · rcases mem_facKeys_addFactor h with h' | h'
            · exact Or.inl h'
            · exact Or.inr (h' ▸ hfprime)
          · exact Or.inr h
      · have hQ' : ∀ m2, 2 ≤ m2 → m2 < f + step → ¬ m2 ∣ n := by
          intro m2 h2 hlt hdvd
          rcases Nat.lt_or_ge m2 f with hltf | hgef
          · exact hQ m2 h2 hltf hdvd
          · rcases Nat.eq_or_lt_of_le hgef with rfl | hgt
            · obtain ⟨k, hk⟩ := hdvd
              exact hd (by rw [hk]; exact Nat.mul_mod_right f k)
            · have h23 : m2 % 2 = 0 ∨ m2 % 3 = 0 := by
                rcases hstate with ⟨h6, h2s⟩ | ⟨h6, h4s⟩ <;> omega
              rcases h23 with he | he
              · exact hQ 2 (by omega) (by omega)
                  (dvd_trans (Nat.dvd_of_mod_eq_zero he) hdvd)
              · exact hQ 3 (by omega) (by omega)
                  (dvd_trans (Nat.dvd_of_mod_eq_zero he) hdvd)
        obtain ⟨fac', n', hrec, hdvd', hn', hg, hkeys⟩ :=
          ih hQ' hstate' (by omega) hn hnb (by omega)
        refine ⟨fac', n', ?_, hdvd', hn', hg, hkeys⟩
        simp only [wheelLoop]
        rw [if_pos hc, if_neg hd]
        exact hrec
    · refine ⟨fac, n, by simp only [wheelLoop]; rw [if_neg hc], dvd_rfl, hn, ⟨f, hQ, ?_⟩,
        fun q hq => Or.inl hq⟩
      rcases Nat.lt_or_ge n (f * f) with h | h
      · exact h
      · have hf2 : 20001 ≤ f := by omega
        have hsq : 20001 * 20001 ≤ f * f := Nat.mul_le_mul (by omega) (by omega)
        omega

/-- A positive number with no divisor below `g` where `g * g` exceeds it is
1 or prime. -/
theorem residual_one_or_prime {n g : Nat} (hn : 0 < n)
    (hQ : ∀ m, 2 ≤ m → m < g → ¬ m ∣ n) (hg : n < g * g) : n = 1 ∨ n.Prime := by
  rcases Nat.lt_or_ge n 2 with h | h
  · left; omega
  · right
    by_contra hnp
    have h1 : n ≠ 1 := by omega
    have hq := Nat.minFac_prime h1
    have hsq := Nat.minFac_sq_le_self (by omega) hnp
    have hlt : n.minFac < g := by
      rw [pow_two] at hsq
      by_contra hge
      push_neg at hge
      have : g * g ≤ n.minFac * n.minFac := Nat.mul_le_mul hge hge
      omega
    exact hQ n.minFac hq.two_le hlt (Nat.minFac_dvd n)

end DeepAnalyze

/-! ### The sigma formula computes the divisor sum -/

theorem divisorSumSpec_mul {a b : Nat} (h : Nat.Coprime a b) :
    divisorSumSpec (a * b) = divisorSumSpec a * divisorSumSpec b := by
  have hm := ArithmeticFunction.isMultiplicative_sigma (k := 1)
  have := hm.map_mul_of_coprime h
  simpa [divisorSumSpec, ArithmeticFunction.sigma_one_apply] using this

theorem divisorSumSpec_prime_pow {p e : Nat} (hp : p.Prime) :
    divisorSumSpec (p ^ e) = (p ^ (e + 1) - 1) / (p - 1) := by
  rw [sigmaTerm_eq_geomSum e hp.two_le]
  calc divisorSumSpec (p ^ e) = ArithmeticFunction.sigma 1 (p ^ e) :=
        (ArithmeticFunction.sigma_one_apply _).symm
    _ = ∑ k ∈ Finset.range (e + 1), p ^ k :=
        ArithmeticFunction.sigma_one_apply_prime_pow hp

theorem facProd_pos {fac : List (Nat × Nat)} (h : ∀ pe ∈ fac, pe.1.Prime) :
    0 < facProd fac := by
  induction fac with
  | nil => simp [facProd]
  | cons pe rest ih =>
    rw [facProd_cons]
    exact Nat.mul_pos (Nat.pos_pow_of_pos _ (h pe (List.mem_cons_self _ _)).pos)
      (ih fun q hq => h q (List.mem_cons_of_mem _ hq))

/-- For a mapping with distinct prime keys, the engine's sigma formula is
exactly the divisor sum of the represented number. -/
theorem sigmaFac_eq_divisorSum :
    ∀ {fac : List (Nat × Nat)}, (∀ pe ∈ fac, pe.1.Prime) → (facKeys fac).Nodup →
      DeepAnalyze.sigma_from_factorization fac = divisorSumSpec (facProd fac) := by
  intro fac
  induction fac with
  | nil =>
    intro _ _
    simp [DeepAnalyze.sigma_from_factorization, facProd, divisorSumSpec]
  | cons pe rest ih =>
    intro hp hnd
    obtain ⟨p, e⟩ := pe
    have hpp : p.Prime := hp (p, e) (List.mem_cons_self _ _)
    have hrestp : ∀ q ∈ rest, q.1.Prime := fun q hq => hp q (List.mem_cons_of_mem _ hq)
    have hnd' : p ∉ facKeys rest ∧ (facKeys rest).Nodup := by
      have : facKeys ((p, e) :: rest) = p :: facKeys rest := rfl
      rw [this] at hnd
      exact ⟨(List.nodup_cons.1 hnd).1, (List.nodup_cons.1 hnd).2⟩
    have hcop : Nat.Coprime (p ^ e) (facProd rest) := by
      apply Nat.Coprime.pow_left
      rw [Nat.Prime.coprime_iff_not_dvd hpp]
      intro hdvd
      have hP : Prime p := hpp.prime
      rcases (Prime.dvd_prod_iff hP).1 hdvd with ⟨a, ha, hpa⟩
      obtain ⟨⟨q, eq⟩, hqe, rfl⟩ := List.mem_map.1 ha
      have hq : q.Prime := hrestp (q, eq) hqe
      have hpq : p ∣ q := hpp.dvd_of_dvd_pow hpa
      have hpeq : p = q := (Nat.prime_dvd_prime_iff_eq hpp hq).1 hpq
      exact hnd'.1 (by rw [hpeq]; exact List.mem_map_of_mem Prod.fst hqe)
    calc DeepAnalyze.sigma_from_factorization ((p, e) :: rest)
        = (p ^ (e + 1) - 1) / (p - 1) * DeepAnalyze.sigma_from_factorization rest :=
          sigma_cons (p, e) rest
      _ = divisorSumSpec (p ^ e) * divisorSumSpec (facProd rest) := by
          rw [ih hrestp hnd'.2, divisorSumSpec_prime_pow hpp]
      _ = divisorSumSpec (p ^ e * facProd rest) := (divisorSumSpec_mul hcop).symm
      _ = divisorSumSpec (facProd ((p, e) :: rest)) := by rw [facProd_cons]

namespace DeepAnalyze

theorem small_primes_two_le : ∀ p ∈ small_primes, 2 ≤ p := by decide

theorem small_cover : ∀ m, m < 41 → 2 ≤ m → ∃ p ∈ small_primes, p ∣ m := by decide

/-- Below 100000 the deep factorizer terminates and returns a mapping with
distinct prime keys whose product is the input. -/
theorem factorize_below_1e5 {fuel n : Nat} (h1 : 1 ≤ n) (h2 : n < 100000)
    (hf : 10000 ≤ fuel) :
    ∃ fac, factorize_trial_then_pollard_rho fuel n = some fac ∧
      (∀ pe ∈ fac, pe.1.Prime) ∧ (facKeys fac).Nodup ∧ facProd fac = n := by
  by_cases hlt : n < 2
  · have hn1 : n = 1 := by omega
    subst hn1
    exact ⟨[], rfl, by simp, by simp [facKeys], rfl⟩
  · obtain ⟨fac1, n1, hsm, hdvd1, hn1, hnodvd1, hkeys1⟩ :=
      smallsLoop_full small_primes [] n (by omega) small_primes_two_le
    have hQ41 : ∀ m, 2 ≤ m → m < 41 → ¬ m ∣ n1 := by
      intro m h2m hm41 hdvd
      obtain ⟨p, hps, hpm⟩ := small_cover m hm41 h2m
      exact hnodvd1 p hps (dvd_trans hpm hdvd)
    have hn1b : n1 < 20001 * 20001 := by
      have := Nat.le_of_dvd (by omega) hdvd1
      omega
    obtain ⟨fac2, n2, hwh, hdvd2, hn2, ⟨g, hQg, hgg⟩, hkeys2⟩ :=
      @wheelLoop_master fuel 41 2 n1 fac1 hQ41 (Or.inl ⟨by omega, rfl⟩)
        (by omega) hn1 hn1b (by omega)
    have hkeys1p : ∀ q, q ∈ facKeys fac1 → q.Prime := by
      intro q hq
      rcases hkeys1 q hq with h | h
      · simp [facKeys] at h
      · exact small_primes_all_prime q h
    have hkeys2p : ∀ q, q ∈ facKeys fac2 → q.Prime := by
      intro q hq
      rcases hkeys2 q hq with h | h
      · exact hkeys1p q h
      · exact h
    have hnd2 : (facKeys fac2).Nodup :=
      nodup_wheelLoop hwh (nodup_smallsLoop hsm (by simp [facKeys]))
    have hres := residual_one_or_prime hn2 hQg hgg
    have hentries : ∀ fc : List (Nat × Nat), (∀ q, q ∈ facKeys fc → q.Prime) →
        ∀ pe ∈ fc, pe.1.Prime := by
      intro fc hk pe hpe
      exact hk pe.1 (List.mem_map_of_mem Prod.fst hpe)
    have hopen : factorize_trial_then_pollard_rho fuel n =
        (if n2 = 1 then some fac2
         else if is_probable_prime n2 = true then some (addFactor fac2 n2 1)
         else split fuel fac2 n2) := by
      unfold factorize_trial_then_pollard_rho
      rw [if_neg hlt, hsm]
      simp [hwh]
    rcases hres with h1' | hprime
    · have heq : factorize_trial_then_pollard_rho fuel n = some fac2 := by
        rw [hopen, if_pos h1']
      exact ⟨fac2, heq, hentries fac2 hkeys2p, hnd2, factorize_prod h1 heq⟩
    · have hipp := is_probable_prime_D_complete hprime
      have heq : factorize_trial_then_pollard_rho fuel n = some (addFactor fac2 n2 1) := by
        rw [hopen, if_neg (by have := hprime.one_lt; omega), if_pos hipp]
      refine ⟨addFactor fac2 n2 1, heq, ?_, nodup_facKeys_addFactor hnd2,
        factorize_prod h1 heq⟩
      apply hentries
      intro q hq
      rcases mem_facKeys_addFactor hq with h | h
      · exact hkeys2p q h
      · exact h ▸ hprime

end DeepAnalyze

/-! ### Claim C2 -/

/-- C2: for every 1 ≤ n < 100000, the deep factorizer terminates and the
sigma formula applied to its factorization equals the sum of all positive
divisors of n; in particular sigma(factorize(28)) = 56 and the proper
divisor sum of 28 is 28. -/
theorem claim_C2 :
    (∀ (n fuel : Nat), 1 ≤ n → n < 100000 → 10000 ≤ fuel →
      ∃ fac, DeepAnalyze.factorize_trial_then_pollard_rho fuel n = some fac ∧
        DeepAnalyze.sigma_from_factorization fac = divisorSumSpec n) ∧
    (DeepAnalyze.factorize_trial_then_pollard_rho 10000 28).map
        DeepAnalyze.sigma_from_factorization = some 56 ∧
    DeepAnalyze.sum_proper_divisors 10000 28 = some 28 := by
  refine ⟨?_, by rfl, by rfl⟩
  intro n fuel h1 h2 hf
  obtain ⟨fac, heq, hprime, hnd, hprod⟩ := DeepAnalyze.factorize_below_1e5 h1 h2 hf
  exact ⟨fac, heq, by rw [sigmaFac_eq_divisorSum hprime hnd, hprod]⟩

/-- Witness for C2 at n = 28 with fuel 10000. -/
theorem claim_C2_witness :
    ∃ fac, DeepAnalyze.factorize_trial_then_pollard_rho 10000 28 = some fac ∧
      DeepAnalyze.sigma_from_factorization fac = divisorSumSpec 28 :=
  claim_C2.1 28 10000 (by omega) (by omega) (by omega)

/-! ### Correctness of trial-division primality (the spec's ground truth) -/

theorem tdOdd_true_of_no_divisor : ∀ (fuel d n : Nat),
    (∀ m, d ≤ m → m * m ≤ n → ¬ m ∣ n) → tdOdd fuel d n = true := by
  intro fuel
  induction fuel with
  | zero => intro d n _; exact tdOdd_zero d n
  | succ f ih =>
    intro d n h
    rw [tdOdd_succ]
    by_cases hdd : d * d ≤ n
    · rw [if_pos hdd,
        if_neg (fun hmod => h d (Nat.le_refl d) hdd (Nat.dvd_of_mod_eq_zero hmod))]
      exact ih (d + 2) n (fun m hm => h m (by omega))
    · rw [if_neg hdd]

theorem tdOdd_no_divisor : ∀ (fuel d n : Nat), tdOdd fuel d n = true →
    d % 2 = 1 → n % 2 = 1 → n < (d + 2 * fuel) * (d + 2 * fuel) →
    ∀ m, d ≤ m → m % 2 = 1 → m * m ≤ n → ¬ m ∣ n := by
  intro fuel
  induction fuel with
  | zero =>
    intro d n _ _ _ hlt m hm _ hmm _
    simp only [Nat.mul_zero, Nat.add_zero] at hlt
    have : d * d ≤ m * m := Nat.mul_le_mul hm hm
    omega
  | succ f ih =>
    intro d n htd hd2 hn2 hlt m hm hm2 hmm hdvd
    rw [tdOdd_succ] at htd
    by_cases hdd : d * d ≤ n
    · rw [if_pos hdd] at htd
      by_cases hmod : n % d = 0
      · rw [if_pos hmod] at htd
        cases htd
      · rw [if_neg hmod] at htd
        rcases Nat.eq_or_lt_of_le hm with rfl | hgt
        · exact hmod (by obtain ⟨k, hk⟩ := hdvd; rw [hk]; exact Nat.mul_mod_right d k)
        · exact ih (d + 2) n htd (by omega) hn2 (by
            have heq : d + 2 + 2 * f = d + 2 * (f + 1) := by ring
            rw [heq]; exact hlt) m (by omega) hm2 hmm hdvd
    · have hml : d * d ≤ m * m := Nat.mul_le_mul hm hm
      omega

/-- The trial-division ground truth decides primality exactly. -/
theorem isPrimeTD_iff (n : Nat) : isPrimeTD n = true ↔ n.Prime := by
  constructor
  · intro h
    unfold isPrimeTD at h
    by_cases h2 : n < 2
    · rw [if_pos h2] at h; cases h
    · rw [if_neg h2] at h
      by_cases he2 : n = 2
      · subst he2; exact Nat.prime_two
      · rw [if_neg he2] at h
        by_cases hev : n % 2 = 0
        · rw [if_pos hev] at h; cases h
        · rw [if_neg hev] at h
          refine Nat.prime_def_le_sqrt.2 ⟨by omega, fun m h2m hms hdvd => ?_⟩
          have hmm : m * m ≤ n := Nat.le_sqrt.1 hms
          by_cases hmo : m % 2 = 1
          · rcases Nat.lt_or_ge m 3 with hlt3 | hge3
            · have : m = 2 := by omega
              omega
            · have hbound : n < (3 + 2 * n) * (3 + 2 * n) := by
                have h1 : 3 + 2 * n ≤ (3 + 2 * n) * (3 + 2 * n) :=
                  Nat.le_mul_of_pos_left _ (by omega)
                omega
              exact tdOdd_no_divisor n 3 n h (by omega) (by omega) hbound m hge3 hmo
                hmm hdvd
          · have h2m' : (2 : Nat) ∣ m := by omega
            have : (2 : Nat) ∣ n := dvd_trans h2m' hdvd
            omega
  · intro hp
    unfold isPrimeTD
    have h2 := hp.two_le
    rw [if_neg (by omega)]
    by_cases he2 : n = 2
    · rw [if_pos he2]
    · rw [if_neg he2]
      have hodd : ¬ n % 2 = 0 := by
        intro hev
        have := (Nat.Prime.eq_one_or_self_of_dvd hp 2 (Nat.dvd_of_mod_eq_zero hev))
        omega
      rw [if_neg hodd]
      apply tdOdd_true_of_no_divisor
      intro m hm hmm hdvd
      rcases Nat.Prime.eq_one_or_self_of_dvd hp m hdvd with h1 | h1
      · omega
      · subst h1
        have h2m : 2 * m ≤ m * m := Nat.mul_le_mul_right m (by omega)
        omega

theorem mrCheck_mod (n d s a : Nat) : mrCheck n d s (a % n) = mrCheck n d s a := by
  unfold mrCheck
  rw [powMod_eq (a % n), powMod_eq a, ← Nat.pow_mod]

theorem witnessLoop_agree (n d s : Nat) :
    ∀ l : List Nat, (∀ a ∈ l, ¬ a % n = 0) →
      DeepAnalyze.witnessLoop n d s l = Analyze.witnessLoop n d s l := by
  intro l
  induction l with
  | nil => intro _; rfl
  | cons a tl ih =>
    intro h
    have ha := h a (List.mem_cons_self _ _)
    simp only [DeepAnalyze.witnessLoop, Analyze.witnessLoop, if_neg ha, mrCheck_mod]
    by_cases hc : mrCheck n d s a
    · rw [if_pos hc, if_pos hc, ih (fun b hb => h b (List.mem_cons_of_mem _ hb))]
    · rw [if_neg hc, if_neg hc]

theorem smallPre_none_spec (n : Nat) :
    ∀ l : List Nat, smallPre n l = none → ∀ p ∈ l, n ≠ p ∧ ¬ n % p = 0 := by
  intro l
  induction l with
  | nil => intro _ p hp; cases hp
  | cons q tl ih =>
    intro h p hp
    simp only [smallPre] at h
    by_cases h1 : n = q
    · rw [if_pos h1] at h; cases h
    · rw [if_neg h1] at h
      by_cases hm : n % q = 0
      · rw [if_pos hm] at h; cases h
      · rw [if_neg hm] at h
        rcases List.mem_cons.1 hp with rfl | hp2
        · exact ⟨h1, hm⟩
        · exact ih h p hp2

theorem smallPre_none_not_dvd {n : Nat} (h : smallPre n small_primes = none) :
    ∀ p ∈ small_primes, ¬ p ∣ n := by
  intro p hp hdvd
  obtain ⟨k, rfl⟩ := hdvd
  exact (smallPre_none_spec _ small_primes h p hp).2 (Nat.mul_mod_right p k)

theorem dvd_prime_mul {p q n : Nat} (hp : p.Prime) (hq : q.Prime)
    (h : n ∣ p * q) : n = 1 ∨ n = p ∨ n = q ∨ n = p * q := by
  by_cases hpn : p ∣ n
  · obtain ⟨k, rfl⟩ := hpn
    have hk : k ∣ q := (mul_dvd_mul_iff_left (by exact_mod_cast hp.pos.ne' : p ≠ 0)).1 h
    rcases Nat.Prime.eq_one_or_self_of_dvd hq k hk with h1 | h1
    · subst h1; right; left; omega
    · subst h1; right; right; right; rfl
  · have hc : n.Coprime p := Nat.Coprime.symm ((Nat.Prime.coprime_iff_not_dvd hp).2 hpn)
    have hnq : n ∣ q := hc.dvd_of_dvd_mul_left h
    rcases Nat.Prime.eq_one_or_self_of_dvd hq n hnq with h1 | h1
    · exact Or.inl h1
    · exact Or.inr (Or.inr (Or.inl h1))

set_option maxRecDepth 8000 in
theorem prime_407521 : Nat.Prime 407521 := (isPrimeTD_iff 407521).1 (by rfl)

theorem allB_sound (f : Nat → Bool) :
    ∀ (fuel lo len : Nat), allB f fuel lo len = true →
      ∀ i, i < len → f (lo + i) = true := by
  intro fuel
  induction fuel with
  | zero =>
    intro lo len h i hi
    rw [allB_zero] at h
    by_cases h0 : len = 0
    · omega
    · rw [if_neg h0] at h
      by_cases h1 : len = 1
      · rw [if_pos h1] at h
        have hi0 : i = 0 := by omega
        subst hi0
        simpa using h
      · rw [if_neg h1] at h
        cases h
  | succ k ih =>
    intro lo len h i hi
    rw [allB_succ] at h
    by_cases h0 : len = 0
    · omega
    · rw [if_neg h0] at h
      by_cases h1 : len = 1
      · rw [if_pos h1] at h
        have hi0 : i = 0 := by omega
        subst hi0
        simpa using h
      · rw [if_neg h1] at h
        rw [Bool.and_eq_true] at h
        rcases h with ⟨hl, hr⟩
        by_cases hlt : i < len / 2
        · exact ih lo (len / 2) hl i hlt
        · have h2 : i - len / 2 < len - len / 2 := by omega
          have h3 := ih (lo + len / 2) (len - len / 2) hr (i - len / 2) h2
          rw [show lo + len / 2 + (i - len / 2) = lo + i by omega] at h3
          exact h3

theorem prime_299210837 : Nat.Prime 299210837 := by
  have hall : allB (fun i => ! (299210837 % (3 + 2 * i) == 0)) 14 0 8648 = true := by
    rfl
  refine Nat.prime_def_le_sqrt.2 ⟨by norm_num, ?_⟩
  intro m h2m hms hdvd
  have hmm : m * m ≤ 299210837 := Nat.le_sqrt.1 hms
  by_cases hpar : m % 2 = 0
  · have h2m' : (2 : Nat) ∣ 299210837 :=
      dvd_trans (Nat.dvd_of_mod_eq_zero hpar) hdvd
    obtain ⟨k, hk⟩ := h2m'
    omega
  · have hub : m ≤ 17297 := by
      by_contra hge
      push_neg at hge
      have hsq : (299220804 : Nat) ≤ m * m := by
        calc (299220804 : Nat) = 17298 * 17298 := by norm_num
          _ ≤ m * m := Nat.mul_le_mul hge hge
      omega
    have hm3 : 3 ≤ m := by omega
    have hfi := allB_sound _ 14 0 8648 hall ((m - 3) / 2) (by omega)
    simp only [Nat.zero_add, Bool.not_eq_true', beq_eq_false_iff_ne, ne_eq] at hfi
    rw [show 3 + 2 * ((m - 3) / 2) = m by omega] at hfi
    obtain ⟨k, hk⟩ := hdvd
    exact hfi (by rw [hk]; exact Nat.mul_mod_right m k)

theorem base_zero_classify {n : Nat} (h2 : 2 ≤ n)
    (hnd : ∀ p ∈ small_primes, ¬ p ∣ n) :
    ∀ a ∈ mrBases, a % n = 0 →
      n = 73 ∨ n = 193 ∨ n = 14089 ∨ n = 407521 ∨ n = 299210837 := by
  have c2 : n.Coprime 2 :=
    Nat.Coprime.symm ((Nat.Prime.coprime_iff_not_dvd (by norm_num)).2 (hnd 2 (by decide)))
  have c3 : n.Coprime 3 :=
    Nat.Coprime.symm ((Nat.Prime.coprime_iff_not_dvd (by norm_num)).2 (hnd 3 (by decide)))
  have c5 : n.Coprime 5 :=
    Nat.Coprime.symm ((Nat.Prime.coprime_iff_not_dvd (by norm_num)).2 (hnd 5 (by decide)))
  have c13 : n.Coprime 13 :=
    Nat.Coprime.symm ((Nat.Prime.coprime_iff_not_dvd (by norm_num)).2 (hnd 13 (by decide)))
  have c19 : n.Coprime 19 :=
    Nat.Coprime.symm ((Nat.Prime.coprime_iff_not_dvd (by norm_num)).2 (hnd 19 (by decide)))
  intro a ha h0
  have hdvd : n ∣ a := Nat.dvd_of_mod_eq_zero h0
  fin_cases ha
  · have hle := Nat.le_of_dvd (by norm_num) hdvd
    have hn2 : n = 2 := by omega
    subst hn2
    exact absurd (dvd_refl 2) (hnd 2 (by decide))
  · have hc : n.Coprime 325 := c5.mul_right (c5.mul_right c13)
    have := hc.eq_one_of_dvd hdvd
    omega
  · have hc : n.Coprime 9375 := c3.mul_right (c5.mul_right (c5.mul_right
      (c5.mul_right (c5.mul_right c5))))
    have := hc.eq_one_of_dvd hdvd
    omega
  · have hd : n ∣ 2 * 14089 := hdvd
    have hd2 : n ∣ 14089 := c2.dvd_of_dvd_mul_left hd
    have hd3 : n ∣ 73 * 193 := hd2
    rcases dvd_prime_mul (by norm_num) (by norm_num) hd3 with h | h | h | h
    · omega
    · exact Or.inl h
    · exact Or.inr (Or.inl h)
    · exact Or.inr (Or.inr (Or.inl h))
  · have hc : n.Coprime 6175 := c5.mul_right (c5.mul_right (c13.mul_right c19))
    have hd : n ∣ 6175 * 73 := hdvd
    have hd2 : n ∣ 73 := hc.dvd_of_dvd_mul_left hd
    rcases Nat.Prime.eq_one_or_self_of_dvd (by norm_num) n hd2 with h | h
    · omega
    · exact Or.inl h
  · have hc : n.Coprime 24 := c2.mul_right (c2.mul_right (c2.mul_right c3))
    have hd : n ∣ 24 * 407521 := hdvd
    have hd2 : n ∣ 407521 := hc.dvd_of_dvd_mul_left hd
    rcases Nat.Prime.eq_one_or_self_of_dvd prime_407521 n hd2 with h | h
    · omega
    · exact Or.inr (Or.inr (Or.inr (Or.inl h)))
  · have hc : n.Coprime 6 := c2.mul_right c3
    have hd : n ∣ 6 * 299210837 := hdvd
    have hd2 : n ∣ 299210837 := hc.dvd_of_dvd_mul_left hd
    rcases Nat.Prime.eq_one_or_self_of_dvd prime_299210837 n hd2 with h | h
    · omega
    · exact Or.inr (Or.inr (Or.inr (Or.inr h)))

theorem ipp_agree (n : Nat) :
    DeepAnalyze.is_probable_prime n = Analyze.is_probable_prime n := by
  unfold DeepAnalyze.is_probable_prime Analyze.is_probable_prime
  by_cases h2 : n < 2
  · rw [if_pos h2, if_pos h2]
  · rw [if_neg h2, if_neg h2]
    cases hsp : smallPre n small_primes with
    | some b => rfl
    | none =>
      by_cases hp : n.Prime
      · have hnmem : n ∉ small_primes := by
          intro hmem
          rw [smallPre_prime hp small_primes small_primes_all_prime,
            if_pos hmem] at hsp
          cases hsp
        have hp2 : 2 < n := prime_gt_two_of_not_mem hp hnmem
        have hodd := oddPart_spec (show 0 < n - 1 by omega)
        rw [witnessLoopD_complete hp hp2 hodd.2 mrBases,
          witnessLoopA_complete hp hp2 hodd.2 mrBases]
      · have hnd := smallPre_none_not_dvd hsp
        by_cases h0 : ∀ a ∈ mrBases, ¬ a % n = 0
        · exact witnessLoop_agree n _ _ mrBases h0
        · push_neg at h0
          obtain ⟨a, ha, h0⟩ := h0
          rcases base_zero_classify (by omega) hnd a ha h0 with h | h | h | h | h
          · exact absurd (by norm_num : Nat.Prime 73) (h ▸ hp)
          · exact absurd (by norm_num : Nat.Prime 193) (h ▸ hp)
          · subst h; decide
          · exact absurd prime_407521 (h ▸ hp)
          · exact absurd prime_299210837 (h ▸ hp)

/-- C7 counterexample: for n = 73 (which passes the small-prime checks,
with oddPart 72 = (9, 3)) the base 28178 reduces to 0 modulo 73, and
deep_analyze.py's loop stops there after examining only 4 of the 7
witnesses instead of skipping it; moreover a zero-residue base by itself
does force the verdict True: placed in front of the failing base 2 at
n = 14089 it flips the loop's verdict from False to True. -/
theorem claim_C7_counterexample :
    oddPart 72 = (9, 3) ∧ 28178 % 73 = 0 ∧
    DeepAnalyze.witnessesExamined 73 9 3 mrBases = 4 ∧ mrBases.length = 7 ∧
    oddPart 14088 = (1761, 3) ∧ 28178 % 14089 = 0 ∧
    DeepAnalyze.witnessLoop 14089 1761 3 [2] = false ∧
    DeepAnalyze.witnessLoop 14089 1761 3 (28178 :: [2]) = true :=
  ⟨by rfl, by rfl, by rfl, by rfl, by rfl, by rfl, by rfl, by rfl⟩

/-- C7 (amended): analyze.py's witness loop does skip a zero-residue base
and continue with the remaining witnesses, but deep_analyze.py's loop
instead returns True immediately on a zero-residue base; the discrepancy
is nevertheless unobservable, as the two is_probable_prime functions agree
on every input. -/
theorem claim_C7 :
    (∀ n d s a rest, a % n = 0 →
        Analyze.witnessLoop n d s (a :: rest) = Analyze.witnessLoop n d s rest) ∧
    (∀ n d s a rest, a % n = 0 →
        DeepAnalyze.witnessLoop n d s (a :: rest) = true) ∧
    (∀ n, DeepAnalyze.is_probable_prime n = Analyze.is_probable_prime n) := by
  refine ⟨?_, ?_, ipp_agree⟩
  · intro n d s a rest h
    simp only [Analyze.witnessLoop, if_pos h]
  · intro n d s a rest h
    simp only [DeepAnalyze.witnessLoop, if_pos h]

theorem claim_C7_witness :
    Analyze.witnessLoop 73 9 3 (28178 :: [2]) = Analyze.witnessLoop 73 9 3 [2] ∧
    DeepAnalyze.witnessLoop 73 9 3 (28178 :: [2]) = true ∧
    DeepAnalyze.is_probable_prime 73 = Analyze.is_probable_prime 73 :=
  ⟨claim_C7.1 73 9 3 28178 [2] (by rfl),
   claim_C7.2.1 73 9 3 28178 [2] (by rfl),
   claim_C7.2.2 73⟩

set_option maxHeartbeats 1000000 in
theorem mr_matches_2000 : allB mrEq 11 0 2000 = true := by rfl

theorem mr_matches_below_2000 (n : Nat) (h : n < 2000) :
    Analyze.is_probable_prime n = isPrimeTD n ∧
    DeepAnalyze.is_probable_prime n = isPrimeTD n := by
  have h1 := allB_sound mrEq 11 0 2000 mr_matches_2000 n h
  rw [Nat.zero_add] at h1
  have h2 : Analyze.is_probable_prime n = isPrimeTD n := eq_of_beq h1
  exact ⟨h2, (ipp_agree n).trans h2⟩

theorem mr_carmichael_561 :
    isPrimeTD 561 = false ∧ Analyze.is_probable_prime 561 = false ∧
    DeepAnalyze.is_probable_prime 561 = false := ⟨by rfl, by rfl, by rfl⟩

end Libttak
